import Mathlib

/-!
Verification of the VOPRF protocol core (draft-irtf-cfrg-voprf-08) as
implemented in `src/voprf.rs` and `src/serialization.rs`.

The prime-order group of a cipher suite is modelled, up to the canonical
isomorphism given by a generator, as the additive group `ZMod q` for a prime
`q`: group elements and scalars are both `ZMod q`, scalar multiplication of an
element by a scalar is field multiplication, the group operation on elements is
addition, and the identity element is `0`.  Bytes are modelled as natural
numbers and byte strings as `List ℕ`.  The hash functions of a suite
(`hash_to_curve`, `hash_to_scalar`, and the suite digest `H`) are arbitrary
function parameters bundled in a `Suite` structure, so every theorem below is
universally quantified over conforming cipher suites.
-/

namespace Voprf

deriving instance DecidableEq for Except

/-- The protocol mode byte: `Base = 0` or `Verifiable = 1` (`Mode` in
`voprf.rs`). -/
inductive Mode where
  | base : Mode
  | verifiable : Mode
deriving DecidableEq

/-- `Mode::to_u8` from `voprf.rs`. -/
def Mode.toU8 : Mode → ℕ
  | .base => 0
  | .verifiable => 1

/-- The flat error enumeration of the crate (`Error` in the library root). -/
inductive Error where
  | input : Error
  | metadata : Error
  | seed : Error
  | deserialization : Error
  | sizeError : Error
  | proofVerification : Error
  | batch : Error
  | pointError : Error
deriving DecidableEq

/-- The ASCII bytes of the string literal VOPRF08- (`STR_VOPRF`). -/
def STR_VOPRF : List ℕ := [86, 79, 80, 82, 70, 48, 56, 45]

/-- The ASCII bytes of the string literal Finalize- (`STR_FINALIZE`). -/
def STR_FINALIZE : List ℕ := [70, 105, 110, 97, 108, 105, 122, 101, 45]

/-- The ASCII bytes of the string literal Seed- (`STR_SEED`). -/
def STR_SEED : List ℕ := [83, 101, 101, 100, 45]

/-- The ASCII bytes of the string literal Context- (`STR_CONTEXT`). -/
def STR_CONTEXT : List ℕ := [67, 111, 110, 116, 101, 120, 116, 45]

/-- The ASCII bytes of the string literal Composite- (`STR_COMPOSITE`). -/
def STR_COMPOSITE : List ℕ := [67, 111, 109, 112, 111, 115, 105, 116, 101, 45]

/-- The ASCII bytes of the string literal Challenge- (`STR_CHALLENGE`). -/
def STR_CHALLENGE : List ℕ := [67, 104, 97, 108, 108, 101, 110, 103, 101, 45]

/-- The ASCII bytes of the string literal HashToGroup- (DST prefix used by the
cipher-suite level hash-to-curve wrapper). -/
def STR_HASH_TO_GROUP : List ℕ := [72, 97, 115, 104, 84, 111, 71, 114, 111, 117, 112, 45]

/-- The ASCII bytes of the string literal HashToScalar- (DST prefix used by the
cipher-suite level hash-to-scalar wrapper). -/
def STR_HASH_TO_SCALAR : List ℕ := [72, 97, 115, 104, 84, 111, 83, 99, 97, 108, 97, 114, 45]

/-- Modelled from the spec: `i2osp_2` from `util.rs` (not among the sources
here); the big-endian two-byte encoding of `n`, failing when `n > 65535`
(spec §4.3). -/
def i2osp2 (n : ℕ) : Option (List ℕ) :=
  if n ≤ 65535 then some [n / 256, n % 256] else none

/-- Modelled from the spec: `i2osp_2_array` from `util.rs`, the infallible
two-byte big-endian encoding of a value already known to fit 16 bits. -/
def i2osp2Arr (n : ℕ) : List ℕ := [n / 256 % 256, n % 256]

/-- A conforming cipher suite over the prime-order group `ZMod q`: the suite
identifier, the element-encoding length, the generator (`base_elem`), the
element serialization, and the suite hash functions.  `hashCurve` and
`hashScalar` take the message and the domain-separation tag; `hashH` is the
suite digest `CS::Hash`.  The two proof fields record spec §4.2 invariants of
conforming groups: `serialize_elem` emits exactly `ElemLen` bytes and is
injective (it has a partial inverse `deserialize_elem`). -/
structure Suite (q : ℕ) where
  suiteID : ℕ
  elemLen : ℕ
  base : ZMod q
  serElem : ZMod q → List ℕ
  hashCurve : List ℕ → List ℕ → ZMod q
  hashScalar : List ℕ → List ℕ → ZMod q
  hashH : List ℕ → List ℕ
  base_ne : base ≠ 0
  serElem_len : ∀ e, (serElem e).length = elemLen
  serElem_inj : ∀ e e', serElem e = serElem e' → e = e'

variable {q : ℕ}

/-- `get_context_string` from `voprf.rs`: VOPRF08- followed by the mode byte
and the big-endian suite identifier. -/
def contextString (S : Suite q) (mode : Mode) : List ℕ :=
  STR_VOPRF ++ [mode.toU8] ++ i2osp2Arr S.suiteID

/-- The DST HashToGroup- followed by the context string. -/
def hashToGroupDST (S : Suite q) (mode : Mode) : List ℕ :=
  STR_HASH_TO_GROUP ++ contextString S mode

/-- The DST HashToScalar- followed by the context string. -/
def hashToScalarDST (S : Suite q) (mode : Mode) : List ℕ :=
  STR_HASH_TO_SCALAR ++ contextString S mode

/-- Modelled from the spec: the cipher-suite level `hash_to_curve` wrapper of
the `Group` trait (`group/mod.rs`, not among the sources here).  It
concatenates the input slices, validates that the total length lies in
`1 ..= 65535` (its callers in `voprf.rs` document failure exactly when the
input is empty or longer than `u16::MAX`), and hashes to the group under the
HashToGroup- DST of the mode. -/
def hashToCurveCS (S : Suite q) (inputs : List (List ℕ)) (mode : Mode) : Option (ZMod q) :=
  let msg := inputs.flatten
  if msg.length = 0 ∨ 65535 < msg.length then none
  else some (S.hashCurve msg (hashToGroupDST S mode))

/-- Modelled from the spec: the cipher-suite level `hash_to_scalar` wrapper of
the `Group` trait (`group/mod.rs`, not among the sources here), with the same
input-length validation as `hashToCurveCS` and the HashToScalar- DST. -/
def hashToScalarCS (S : Suite q) (inputs : List (List ℕ)) (mode : Mode) : Option (ZMod q) :=
  let msg := inputs.flatten
  if msg.length = 0 ∨ 65535 < msg.length then none
  else some (S.hashScalar msg (hashToScalarDST S mode))

/-- Modelled from the spec: `invert_scalar` (§4.2: modular inverse, with
`invert_scalar 0 = 0`), computed by Fermat exponentiation so that it is
kernel-executable; `invertScalar_eq_inv` below identifies it with the field
inverse of `ZMod q` for prime `q`. -/
def invertScalar (s : ZMod q) : ZMod q :=
  if s = 0 then 0 else s ^ (q - 2)

/-- Client state of the base mode (`NonVerifiableClient`): the blinding
scalar. -/
structure NonVerifiableClient (q : ℕ) where
  blind : ZMod q
deriving DecidableEq

/-- Client state of the verifiable mode (`VerifiableClient`): the blinding
scalar and the retained blinded element. -/
structure VerifiableClient (q : ℕ) where
  blind : ZMod q
  blindedElement : ZMod q
deriving DecidableEq

/-- Server state of the base mode (`NonVerifiableServer`): the secret key. -/
structure NonVerifiableServer (q : ℕ) where
  sk : ZMod q
deriving DecidableEq

/-- Server state of the verifiable mode (`VerifiableServer`): the secret key
and the public key. -/
structure VerifiableServer (q : ℕ) where
  sk : ZMod q
  pk : ZMod q
deriving DecidableEq

/-- The DLEQ proof (`Proof` in `voprf.rs`): challenge and response scalars.
The wire wrappers `BlindedElement` and `EvaluationElement` are transparent
newtypes around a group element and are modelled by the element itself. -/
structure Proof (q : ℕ) where
  c_scalar : ZMod q
  s_scalar : ZMod q
deriving DecidableEq

/-- Inner function `deterministic_blind_unchecked` from `voprf.rs`: hash the
input to the curve and multiply by the given blinding factor; a hash failure
surfaces as `Error::Input`. -/
def deterministicBlindUnchecked (S : Suite q) (input : List ℕ) (blind : ZMod q)
    (mode : Mode) : Except Error (ZMod q) :=
  match hashToCurveCS S [input] mode with
  | none => .error .input
  | some hashedPoint => .ok (hashedPoint * blind)

/-- `NonVerifiableClient::blind` from `voprf.rs`.  The RNG is modelled by the
scalar `r` it produces (`random_scalar` rejection-samples zero, so honest runs
have `r ≠ 0`).  Returns the client state and the blinded element message. -/
def nonVerifiableBlind (S : Suite q) (input : List ℕ) (r : ZMod q) :
    Except Error (NonVerifiableClient q × ZMod q) :=
  match deterministicBlindUnchecked S input r .base with
  | .error e => .error e
  | .ok blindedElement => .ok (⟨r⟩, blindedElement)

/-- `VerifiableClient::blind` from `voprf.rs`: as `nonVerifiableBlind` but in
verifiable mode, with the blinded element retained in the state. -/
def verifiableBlind (S : Suite q) (input : List ℕ) (r : ZMod q) :
    Except Error (VerifiableClient q × ZMod q) :=
  match deterministicBlindUnchecked S input r .verifiable with
  | .error e => .error e
  | .ok blindedElement => .ok (⟨r, blindedElement⟩, blindedElement)

/-- The context byte string Context- || contextString || I2OSP(|info|,2) ||
info hashed to obtain the metadata scalar `m` (built identically in
`NonVerifiableServer::evaluate`, `VerifiableServer::batch_evaluate_prepare`
and `verifiable_unblind`). -/
def contextBytes (S : Suite q) (info : List ℕ) (mode : Mode) : List ℕ :=
  STR_CONTEXT ++ contextString S mode ++ i2osp2Arr info.length ++ info

/-- The metadata scalar `m = HashToScalar(context)` (unvalidated form). -/
def mScalar (S : Suite q) (info : List ℕ) (mode : Mode) : ZMod q :=
  S.hashScalar (contextBytes S info mode) (hashToScalarDST S mode)

/-- `NonVerifiableServer::evaluate` from `voprf.rs`: frame the metadata into
the context, hash it to the scalar `m`, and return the evaluation element
`Z = B · (sk + m)⁻¹`.  Both framing failures surface as `Error::Metadata`. -/
def NonVerifiableServer.evaluate (S : Suite q) (server : NonVerifiableServer q)
    (blindedElement : ZMod q) (metadata : List ℕ) : Except Error (ZMod q) :=
  match i2osp2 metadata.length with
  | none => .error .metadata
  | some lenBytes =>
    match hashToScalarCS S [STR_CONTEXT ++ contextString S .base ++ lenBytes, metadata] .base with
    | none => .error .metadata
    | some m =>
      let t := server.sk + m
      .ok (blindedElement * invertScalar t)

/-- `finalize_after_unblind` from `voprf.rs`, specialized to one item: the
framed final hash I2OSP(|input|,2) || input || I2OSP(|info|,2) || info ||
I2OSP(ElemLen,2) || serialize(N) || I2OSP(|finalizeDST|,2) || finalizeDST. -/
def finalizeAfterUnblindOne (S : Suite q) (input : List ℕ) (unblindedElement : ZMod q)
    (info : List ℕ) (mode : Mode) : Except Error (List ℕ) :=
  let finalizeDST := STR_FINALIZE ++ contextString S mode
  match i2osp2 input.length with
  | none => .error .input
  | some inputLen =>
    match i2osp2 info.length with
    | none => .error .metadata
    | some infoLen =>
      .ok (S.hashH (inputLen ++ input ++ infoLen ++ info ++
        i2osp2Arr S.elemLen ++ S.serElem unblindedElement ++
        i2osp2Arr finalizeDST.length ++ finalizeDST))

/-- `finalize_after_unblind` from `voprf.rs` over a whole batch: each item can
fail individually. -/
def finalizeAfterUnblind (S : Suite q) (pairs : List (List ℕ × ZMod q))
    (info : List ℕ) (mode : Mode) : List (Except Error (List ℕ)) :=
  pairs.map fun p => finalizeAfterUnblindOne S p.1 p.2 info mode

/-- `NonVerifiableClient::finalize` from `voprf.rs`: unblind the evaluation
element with the inverse blind and hash the framed transcript. -/
def NonVerifiableClient.finalize (S : Suite q) (client : NonVerifiableClient q)
    (input : List ℕ) (evaluationElement : ZMod q) (metadata : List ℕ) :
    Except Error (List ℕ) :=
  let unblindedElement := evaluationElement * invertScalar client.blind
  finalizeAfterUnblindOne S input unblindedElement metadata .base

/-- The composite seed from `compute_composites`: the suite digest of
I2OSP(ElemLen,2) || serialize(B) || I2OSP(|seedDST|,2) || Seed- ||
contextString. -/
def seedBytes (S : Suite q) (b : ZMod q) : List ℕ :=
  let seedDST := STR_SEED ++ contextString S .verifiable
  S.hashH (i2osp2Arr S.elemLen ++ S.serElem b ++ i2osp2Arr seedDST.length ++ seedDST)

/-- The per-index hash input of `compute_composites`: I2OSP(|seed|,2) || seed
|| I2OSP(i,2) || I2OSP(ElemLen,2) || serialize(Cᵢ) || I2OSP(ElemLen,2) ||
serialize(Dᵢ) || I2OSP(|compositeDST|,2) || compositeDST. -/
def compositeInput (S : Suite q) (seed : List ℕ) (i : ℕ) (c d : ZMod q) : List ℕ :=
  let compositeDST := STR_COMPOSITE ++ contextString S .verifiable
  i2osp2Arr seed.length ++ seed ++ i2osp2Arr i ++
    i2osp2Arr S.elemLen ++ S.serElem c ++ i2osp2Arr S.elemLen ++ S.serElem d ++
    i2osp2Arr compositeDST.length ++ compositeDST

/-- The per-index composite scalar `dᵢ` of `compute_composites` (the
`hash_to_scalar` call that cannot fail because its input size is known). -/
def compositeScalar (S : Suite q) (seed : List ℕ) (i : ℕ) (c d : ZMod q) : ZMod q :=
  S.hashScalar (compositeInput S seed i c d) (hashToScalarDST S .verifiable)

/-- The accumulation loop of `compute_composites`: starting at index `i` with
accumulators `(m, z)`, fold `m ← Cᵢ·dᵢ + m` and, on the client side
(`useZ = true`), `z ← Dᵢ·dᵢ + z`. -/
def compLoop (S : Suite q) (seed : List ℕ) (useZ : Bool) :
    ℕ → List (ZMod q × ZMod q) → ZMod q × ZMod q → ZMod q × ZMod q
  | _, [], acc => acc
  | i, cd :: rest, acc =>
    let di := compositeScalar S seed i cd.1 cd.2
    compLoop S seed useZ (i + 1) rest
      (cd.1 * di + acc.1, if useZ then cd.2 * di + acc.2 else acc.2)

/-- `compute_composites` from `voprf.rs`: batch-length validation, the seeded
accumulation loop, and the server shortcut `Z = M·k` when the key is known. -/
def computeComposites (S : Suite q) (kOption : Option (ZMod q)) (b : ZMod q)
    (cs ds : List (ZMod q)) : Except Error (ZMod q × ZMod q) :=
  if cs.length ≠ ds.length then .error .batch
  else if 65535 < cs.length then .error .batch
  else
    let seed := seedBytes S b
    let p := compLoop S seed kOption.isNone 0 (cs.zip ds) (0, 0)
    match kOption with
    | some k => .ok (p.1, p.1 * k)
    | none => .ok p

/-- The challenge hash input shared by `generate_proof` and `verify_proof`:
each of `B`, `M`, `Z`, `t2`, `t3` serialized and length-prefixed, followed by
the length-prefixed Challenge- DST. -/
def challengeInput (S : Suite q) (b m z t2 t3 : ZMod q) : List ℕ :=
  let challengeDST := STR_CHALLENGE ++ contextString S .verifiable
  i2osp2Arr S.elemLen ++ S.serElem b ++ i2osp2Arr S.elemLen ++ S.serElem m ++
    i2osp2Arr S.elemLen ++ S.serElem z ++ i2osp2Arr S.elemLen ++ S.serElem t2 ++
    i2osp2Arr S.elemLen ++ S.serElem t3 ++
    i2osp2Arr challengeDST.length ++ challengeDST

/-- The challenge scalar hashed from `challengeInput` (another infallible
`hash_to_scalar` call). -/
def challengeScalar (S : Suite q) (b m z t2 t3 : ZMod q) : ZMod q :=
  S.hashScalar (challengeInput S b m z t2 t3) (hashToScalarDST S .verifiable)

/-- `generate_proof` from `voprf.rs`.  The RNG is modelled by the nonce `r` it
produces.  Computes server-side composites, the commitments `t2 = a·r` and
`t3 = M·r`, the challenge, and the response `s = r − c·k`. -/
def generateProof (S : Suite q) (r k a b : ZMod q) (cs ds : List (ZMod q)) :
    Except Error (Proof q) :=
  match computeComposites S (some k) b cs ds with
  | .error e => .error e
  | .ok mz =>
    let t2 := a * r
    let t3 := mz.1 * r
    let c := challengeScalar S b mz.1 mz.2 t2 t3
    .ok ⟨c, r - c * k⟩

/-- `verify_proof` from `voprf.rs`: client-side composites, the recomputed
commitments `t2 = a·s + b·c` and `t3 = M·s + Z·c`, and the constant-time
comparison of the recomputed challenge with the proof challenge. -/
def verifyProof (S : Suite q) (a b : ZMod q) (cs ds : List (ZMod q)) (pf : Proof q) :
    Except Error Unit :=
  match computeComposites S none b cs ds with
  | .error e => .error e
  | .ok mz =>
    let t2 := a * pf.s_scalar + b * pf.c_scalar
    let t3 := mz.1 * pf.s_scalar + mz.2 * pf.c_scalar
    if challengeScalar S b mz.1 mz.2 t2 t3 = pf.c_scalar then .ok ()
    else .error .proofVerification

/-- `verifiable_unblind` from `voprf.rs`: recompute the metadata scalar `m`,
form `u = g·m + pk`, verify the proof over the evaluation elements (as `Cs`)
and the clients' retained blinded elements (as `Ds`), and unblind each
message with the matching client's inverse blind. -/
def verifiableUnblind (S : Suite q) (clients : List (VerifiableClient q))
    (messages : List (ZMod q)) (pk : ZMod q) (pf : Proof q) (info : List ℕ) :
    Except Error (List (ZMod q)) :=
  match i2osp2 info.length with
  | none => .error .metadata
  | some lenBytes =>
    match hashToScalarCS S
        [STR_CONTEXT ++ contextString S .verifiable ++ lenBytes, info] .verifiable with
    | none => .error .metadata
    | some m =>
      let g := S.base
      let u := g * m + pk
      match verifyProof S g u messages (clients.map (·.blindedElement)) pf with
      | .error e => .error e
      | .ok _ => .ok ((clients.zip messages).map fun p => p.2 * invertScalar p.1.blind)

/-- `VerifiableClient::batch_finalize` from `voprf.rs`: verifiable unblinding
followed by the per-item finalize hashes. -/
def batchFinalize (S : Suite q) (inputs : List (List ℕ))
    (clients : List (VerifiableClient q)) (messages : List (ZMod q))
    (pf : Proof q) (pk : ZMod q) (metadata : List ℕ) :
    Except Error (List (Except Error (List ℕ))) :=
  match verifiableUnblind S clients messages pk pf metadata with
  | .error e => .error e
  | .ok unblindedElements =>
    .ok (finalizeAfterUnblind S (inputs.zip unblindedElements) metadata .verifiable)

/-- `VerifiableClient::finalize` from `voprf.rs`: the singleton case of
`batch_finalize`; the empty branch models the infallible `next().unwrap()`
on the provably nonempty result iterator. -/
def VerifiableClient.finalize (S : Suite q) (client : VerifiableClient q)
    (input : List ℕ) (evaluationElement : ZMod q) (pf : Proof q) (pk : ZMod q)
    (metadata : List ℕ) : Except Error (List ℕ) :=
  match batchFinalize S [input] [client] [evaluationElement] pf pk metadata with
  | .error e => .error e
  | .ok [] => .error .batch
  | .ok (r :: _) => r

/-- `VerifiableServer::batch_evaluate_prepare` from `voprf.rs`: metadata
framing and hashing as in the base-mode evaluate, then every blinded element
is multiplied by `t⁻¹ = (sk + m)⁻¹`; also returns the prepared `t`. -/
def VerifiableServer.batchEvaluatePrepare (S : Suite q) (server : VerifiableServer q)
    (blindedElements : List (ZMod q)) (metadata : List ℕ) :
    Except Error (List (ZMod q) × ZMod q) :=
  match i2osp2 metadata.length with
  | none => .error .metadata
  | some lenBytes =>
    match hashToScalarCS S
        [STR_CONTEXT ++ contextString S .verifiable ++ lenBytes, metadata] .verifiable with
    | none => .error .metadata
    | some m =>
      let t := server.sk + m
      .ok (blindedElements.map (· * invertScalar t), t)

/-- `VerifiableServer::batch_evaluate_finish` from `voprf.rs`: generate the
DLEQ proof for `u = g·t` over the prepared evaluation elements (as `Cs`) and
the blinded elements (as `Ds`), returning the messages and the proof.  The
RNG is modelled by the nonce `r` it produces. -/
def batchEvaluateFinish (S : Suite q) (r : ZMod q) (blindedElements : List (ZMod q))
    (evaluationElements : List (ZMod q)) (t : ZMod q) :
    Except Error (List (ZMod q) × Proof q) :=
  let g := S.base
  let u := g * t
  match generateProof S r t g u evaluationElements blindedElements with
  | .error e => .error e
  | .ok pf => .ok (evaluationElements, pf)

/-- `VerifiableServer::evaluate` from `voprf.rs`: the singleton chain of
`batch_evaluate_prepare` and `batch_evaluate_finish`; the empty branches
model the infallible `next().unwrap()` calls on singleton iterators. -/
def VerifiableServer.evaluate (S : Suite q) (server : VerifiableServer q)
    (r : ZMod q) (blindedElement : ZMod q) (metadata : List ℕ) :
    Except Error (ZMod q × Proof q) :=
  match server.batchEvaluatePrepare S [blindedElement] metadata with
  | .error e => .error e
  | .ok prepared =>
    match batchEvaluateFinish S r [blindedElement] prepared.1 prepared.2 with
    | .error e => .error e
    | .ok msgs =>
      match msgs.1 with
      | [] => .error .batch
      | msg :: _ => .ok (msg, msgs.2)

/-- The reference PRF of the specification (§8): the framed suite hash of
`hash_to_curve(x) · (k + m)⁻¹` where `m` is the metadata scalar.  This
definition follows the spec's words and is the comparison point of the
protocol-correctness claims. -/
def prfReference (S : Suite q) (x : List ℕ) (k : ZMod q) (info : List ℕ)
    (mode : Mode) : List ℕ :=
  let m := mScalar S info mode
  let n := S.hashCurve x (hashToGroupDST S mode) * invertScalar (k + m)
  let finalizeDST := STR_FINALIZE ++ contextString S mode
  S.hashH (i2osp2Arr x.length ++ x ++ i2osp2Arr info.length ++ info ++
    i2osp2Arr S.elemLen ++ S.serElem n ++
    i2osp2Arr finalizeDST.length ++ finalizeDST)

/-! ### Wire codec and the serialization layer

The group-level scalar and element codecs live in the `Group` trait
implementations, which are not among the sources here; they are modelled from
the spec (§4.2): fixed-width encodings whose deserialization rejects
non-canonical values, the zero scalar, and the identity element.  The
structure-level serialization below translates `serialization.rs`. -/

/-- Big-endian base-256 encoding of `n` into exactly `len` digits. -/
def natToBytesBE : ℕ → ℕ → List ℕ
  | 0, _ => []
  | len + 1, n => natToBytesBE len (n / 256) ++ [n % 256]

/-- Big-endian base-256 decoding of a digit list. -/
def bytesToNatBE (l : List ℕ) : ℕ := l.foldl (fun a b => a * 256 + b) 0

/-- Modelled from the spec: `serialize_scalar` of a group with scalar length
`sLen` (§4.2; the trait implementation is not among the sources here). -/
def serializeScalarM (sLen : ℕ) (s : ZMod q) : List ℕ := natToBytesBE sLen s.val

/-- Modelled from the spec: `deserialize_scalar` (§4.2), rejecting a
wrong-length input, a non-byte digit, a non-canonical value, and the zero
scalar with `Error::Deserialization`. -/
def deserializeScalarM (sLen : ℕ) (l : List ℕ) : Except Error (ZMod q) :=
  if l.length = sLen ∧ (∀ b ∈ l, b < 256) ∧ bytesToNatBE l ≠ 0 ∧ bytesToNatBE l < q then
    .ok (bytesToNatBE l)
  else .error .deserialization

/-- Modelled from the spec: `serialize_elem` of a group with element length
`eLen` (§4.2), written through the canonical generator so that the identity
element encodes the value zero. -/
def serializeElemM (eLen : ℕ) (e : ZMod q) : List ℕ := natToBytesBE eLen e.val

/-- Modelled from the spec: `deserialize_elem` (§4.2), rejecting a
wrong-length input, a non-byte digit, a non-canonical encoding, and the
identity element with `Error::Deserialization`. -/
def deserializeElemM (eLen : ℕ) (l : List ℕ) : Except Error (ZMod q) :=
  if l.length = eLen ∧ (∀ b ∈ l, b < 256) ∧ bytesToNatBE l ≠ 0 ∧ bytesToNatBE l < q then
    .ok (bytesToNatBE l)
  else .error .deserialization

/-- The streaming scalar reader `deserialize_scalar` of `serialization.rs`:
take `ScalarLen` bytes off the input (failing with `Deserialization` when too
few remain) and decode them, returning the rest of the input. -/
def readScalar (sLen : ℕ) (l : List ℕ) : Except Error (ZMod q × List ℕ) :=
  match deserializeScalarM (q := q) sLen (l.take sLen) with
  | .error e => .error e
  | .ok s => .ok (s, l.drop sLen)

/-- The streaming element reader `deserialize_elem` of `serialization.rs`. -/
def readElem (eLen : ℕ) (l : List ℕ) : Except Error (ZMod q × List ℕ) :=
  match deserializeElemM (q := q) eLen (l.take eLen) with
  | .error e => .error e
  | .ok e => .ok (e, l.drop eLen)

/-- `NonVerifiableClient::serialize` from `serialization.rs`. -/
def NonVerifiableClient.serialize (sLen : ℕ) (c : NonVerifiableClient q) : List ℕ :=
  serializeScalarM sLen c.blind

/-- `NonVerifiableClient::deserialize` from `serialization.rs`. -/
def NonVerifiableClient.deserialize (sLen : ℕ) (input : List ℕ) :
    Except Error (NonVerifiableClient q) :=
  match readScalar (q := q) sLen input with
  | .error e => .error e
  | .ok s => .ok ⟨s.1⟩

/-- `VerifiableClient::serialize` from `serialization.rs`: blind followed by
the blinded element. -/
def VerifiableClient.serialize (sLen eLen : ℕ) (c : VerifiableClient q) : List ℕ :=
  serializeScalarM sLen c.blind ++ serializeElemM eLen c.blindedElement

/-- `VerifiableClient::deserialize` from `serialization.rs`. -/
def VerifiableClient.deserialize (sLen eLen : ℕ) (input : List ℕ) :
    Except Error (VerifiableClient q) :=
  match readScalar (q := q) sLen input with
  | .error e => .error e
  | .ok s =>
    match readElem eLen s.2 with
    | .error e => .error e
    | .ok e => .ok ⟨s.1, e.1⟩

/-- `NonVerifiableServer::serialize` from `serialization.rs`. -/
def NonVerifiableServer.serialize (sLen : ℕ) (s : NonVerifiableServer q) : List ℕ :=
  serializeScalarM sLen s.sk

/-- `NonVerifiableServer::deserialize` from `serialization.rs`. -/
def NonVerifiableServer.deserialize (sLen : ℕ) (input : List ℕ) :
    Except Error (NonVerifiableServer q) :=
  match readScalar (q := q) sLen input with
  | .error e => .error e
  | .ok s => .ok ⟨s.1⟩

/-- `VerifiableServer::serialize` from `serialization.rs`: secret key followed
by the public key. -/
def VerifiableServer.serialize (sLen eLen : ℕ) (s : VerifiableServer q) : List ℕ :=
  serializeScalarM sLen s.sk ++ serializeElemM eLen s.pk

/-- `VerifiableServer::deserialize` from `serialization.rs`. -/
def VerifiableServer.deserialize (sLen eLen : ℕ) (input : List ℕ) :
    Except Error (VerifiableServer q) :=
  match readScalar (q := q) sLen input with
  | .error e => .error e
  | .ok s =>
    match readElem eLen s.2 with
    | .error e => .error e
    | .ok e => .ok ⟨s.1, e.1⟩

/-- `Proof::serialize` from `serialization.rs`: `c` followed by `s`. -/
def Proof.serialize (sLen : ℕ) (pf : Proof q) : List ℕ :=
  serializeScalarM sLen pf.c_scalar ++ serializeScalarM sLen pf.s_scalar

/-- `Proof::deserialize` from `serialization.rs`. -/
def Proof.deserialize (sLen : ℕ) (input : List ℕ) : Except Error (Proof q) :=
  match readScalar (q := q) sLen input with
  | .error e => .error e
  | .ok c =>
    match readScalar sLen c.2 with
    | .error e => .error e
    | .ok s => .ok ⟨c.1, s.1⟩

/-- `BlindedElement::serialize` from `serialization.rs` (the wrapper is a
transparent newtype over a group element). -/
def serializeBlindedElement (eLen : ℕ) (e : ZMod q) : List ℕ := serializeElemM eLen e

/-- `BlindedElement::deserialize` from `serialization.rs`. -/
def deserializeBlindedElement (eLen : ℕ) (input : List ℕ) : Except Error (ZMod q) :=
  match readElem (q := q) eLen input with
  | .error e => .error e
  | .ok e => .ok e.1

/-- `EvaluationElement::serialize` from `serialization.rs`. -/
def serializeEvaluationElement (eLen : ℕ) (e : ZMod q) : List ℕ := serializeElemM eLen e

/-- `EvaluationElement::deserialize` from `serialization.rs`. -/
def deserializeEvaluationElement (eLen : ℕ) (input : List ℕ) : Except Error (ZMod q) :=
  match readElem (q := q) eLen input with
  | .error e => .error e
  | .ok e => .ok e.1

/-- The evaluation element of an honest verifiable evaluation:
`E = B · (sk + m)⁻¹`. -/
def honestEvalElem (S : Suite q) (k B : ZMod q) (info : List ℕ) : ZMod q :=
  B * invertScalar (k + mScalar S info .verifiable)

/-- The DLEQ proof produced by an honest singleton verifiable evaluation with
nonce `rp`, key-plus-metadata scalar `t`, evaluation element `E` and blinded
element `B`. -/
def honestProof (S : Suite q) (rp t E B : ZMod q) : Proof q :=
  let u := S.base * t
  let d := compositeScalar S (seedBytes S u) 0 E B
  let m := E * d
  let c := challengeScalar S u m (m * t) (S.base * rp) (m * rp)
  ⟨c, rp - c * t⟩

/-- A small concrete conforming suite over `ZMod 11`, used to instantiate the
universally quantified theorems on executable inputs. -/
def toySuite : Suite 11 where
  suiteID := 1
  elemLen := 1
  base := 2
  serElem e := [e.val]
  hashCurve msg dst :=
    ((msg.foldl (fun a b => a * 33 + b + 1) 5 + dst.foldl (fun a b => a * 31 + b) 7 : ℕ) : ZMod 11)
  hashScalar msg dst :=
    ((msg.foldl (fun a b => a * 29 + b + 3) 6 + dst.foldl (fun a b => a * 27 + b) 4 : ℕ) : ZMod 11)
  hashH l := [l.foldl (fun a b => (a * 37 + b + 2) % 256) 9]
  base_ne := by decide
  serElem_len := by intro e; rfl
  serElem_inj := by decide

/-! ### Basic lemmas -/

theorem invertScalar_eq_inv [Fact q.Prime] (s : ZMod q) : invertScalar s = s⁻¹ := by
  unfold invertScalar
  by_cases hs : s = 0
  · simp [hs]
  · have hp : 2 ≤ q := (Fact.out (p := q.Prime)).two_le
    have h1 : s ^ (q - 1) = 1 := ZMod.pow_card_sub_one_eq_one hs
    have h2 : q - 1 = (q - 2) + 1 := by omega
    rw [h2, pow_succ, mul_comm] at h1
    simp only [hs, if_false]
    exact (inv_eq_of_mul_eq_one_right h1).symm

theorem invertScalar_mul_cancel [Fact q.Prime] {s : ZMod q} (hs : s ≠ 0) :
    s * invertScalar s = 1 := by
  rw [invertScalar_eq_inv]
  exact mul_inv_cancel₀ hs

theorem contextString_length (S : Suite q) (mode : Mode) :
    (contextString S mode).length = 11 := by
  simp [contextString, STR_VOPRF, i2osp2Arr]

theorem i2osp2_of_le {n : ℕ} (h : n ≤ 65535) : i2osp2 n = some (i2osp2Arr n) := by
  have : n / 256 < 256 := by omega
  simp [i2osp2, i2osp2Arr, h, Nat.mod_eq_of_lt this]

theorem i2osp2_of_gt {n : ℕ} (h : 65535 < n) : i2osp2 n = none := by
  simp [i2osp2]; omega

theorem i2osp2Arr_length (n : ℕ) : (i2osp2Arr n).length = 2 := rfl

/-- The two-slice context passed to `hash_to_scalar` by the evaluate and
unblind paths flattens to `contextBytes`. -/
theorem context_flatten (S : Suite q) (info : List ℕ) (mode : Mode) :
    (STR_CONTEXT ++ contextString S mode ++ i2osp2Arr info.length) ++ info =
      contextBytes S info mode := by
  simp [contextBytes]

theorem contextBytes_length (S : Suite q) (info : List ℕ) (mode : Mode) :
    (contextBytes S info mode).length = 21 + info.length := by
  simp [contextBytes, STR_CONTEXT, contextString_length, i2osp2Arr]
  omega

/-- The metadata hash of the evaluate and unblind paths succeeds exactly on
metadata of length at most `65535 − 21` and then yields `mScalar`. -/
theorem hashToScalarCS_context_of_le (S : Suite q) {info : List ℕ} (mode : Mode)
    (h : info.length ≤ 65514) :
    hashToScalarCS S [STR_CONTEXT ++ contextString S mode ++ i2osp2Arr info.length, info]
      mode = some (mScalar S info mode) := by
  have hflat :
      ([STR_CONTEXT ++ contextString S mode ++ i2osp2Arr info.length, info] :
        List (List ℕ)).flatten = contextBytes S info mode := by
    simp [contextBytes]
  have hlen : (contextBytes S info mode).length = 21 + info.length :=
    contextBytes_length S info mode
  unfold hashToScalarCS
  rw [hflat]
  rw [if_neg (by omega)]
  rfl

theorem hashToScalarCS_context_of_gt (S : Suite q) {info : List ℕ} (mode : Mode)
    (h : 65514 < info.length) :
    hashToScalarCS S [STR_CONTEXT ++ contextString S mode ++ i2osp2Arr info.length, info]
      mode = none := by
  have hflat :
      ([STR_CONTEXT ++ contextString S mode ++ i2osp2Arr info.length, info] :
        List (List ℕ)).flatten = contextBytes S info mode := by
    simp [contextBytes]
  have hlen : (contextBytes S info mode).length = 21 + info.length :=
    contextBytes_length S info mode
  unfold hashToScalarCS
  rw [hflat]
  rw [if_pos (by omega)]

/-- `hash_to_curve` on a single nonempty input of admissible length. -/
theorem hashToCurveCS_single_of_valid (S : Suite q) {x : List ℕ} (mode : Mode)
    (h1 : x ≠ []) (h2 : x.length ≤ 65535) :
    hashToCurveCS S [x] mode = some (S.hashCurve x (hashToGroupDST S mode)) := by
  have hne : x.length ≠ 0 := by simpa using h1
  unfold hashToCurveCS
  simp only [List.flatten, List.append_nil]
  rw [if_neg (by omega)]

theorem hashToCurveCS_single_of_invalid (S : Suite q) {x : List ℕ} (mode : Mode)
    (h : x.length = 0 ∨ 65535 < x.length) :
    hashToCurveCS S [x] mode = none := by
  unfold hashToCurveCS
  simp only [List.flatten, List.append_nil]
  rw [if_pos h]

/-- Characterization of a successful base-mode evaluate. -/
theorem evaluateBase_of_le (S : Suite q) (sk B : ZMod q) {info : List ℕ}
    (h : info.length ≤ 65514) :
    NonVerifiableServer.evaluate S ⟨sk⟩ B info =
      .ok (B * invertScalar (sk + mScalar S info .base)) := by
  unfold NonVerifiableServer.evaluate
  rw [i2osp2_of_le (by omega)]
  dsimp only
  rw [hashToScalarCS_context_of_le S .base h]

/-- A base-mode evaluate on oversized metadata fails with `Metadata`. -/
theorem evaluateBase_of_gt (S : Suite q) (sk B : ZMod q) {info : List ℕ}
    (h : 65514 < info.length) :
    NonVerifiableServer.evaluate S ⟨sk⟩ B info = .error .metadata := by
  unfold NonVerifiableServer.evaluate
  by_cases h65535 : info.length ≤ 65535
  · rw [i2osp2_of_le h65535]
    dsimp only
    rw [hashToScalarCS_context_of_gt S .base h]
  · rw [i2osp2_of_gt (by omega)]

/-- Characterization of a successful verifiable batch-evaluate preparation. -/
theorem batchEvaluatePrepare_of_le (S : Suite q) (sk pk : ZMod q)
    (bs : List (ZMod q)) {info : List ℕ} (h : info.length ≤ 65514) :
    VerifiableServer.batchEvaluatePrepare S ⟨sk, pk⟩ bs info =
      .ok (bs.map (· * invertScalar (sk + mScalar S info .verifiable)),
        sk + mScalar S info .verifiable) := by
  unfold VerifiableServer.batchEvaluatePrepare
  rw [i2osp2_of_le (by omega)]
  dsimp only
  rw [hashToScalarCS_context_of_le S .verifiable h]

/-- A verifiable batch-evaluate preparation on oversized metadata fails with
`Metadata`. -/
theorem batchEvaluatePrepare_of_gt (S : Suite q) (sk pk : ZMod q)
    (bs : List (ZMod q)) {info : List ℕ} (h : 65514 < info.length) :
    VerifiableServer.batchEvaluatePrepare S ⟨sk, pk⟩ bs info = .error .metadata := by
  unfold VerifiableServer.batchEvaluatePrepare
  by_cases h65535 : info.length ≤ 65535
  · rw [i2osp2_of_le h65535]
    dsimp only
    rw [hashToScalarCS_context_of_gt S .verifiable h]
  · rw [i2osp2_of_gt (by omega)]

/-- Characterization of a successful single-item finalize hash. -/
theorem finalizeAfterUnblindOne_of_valid (S : Suite q) {x info : List ℕ}
    (n : ZMod q) (mode : Mode) (hx2 : x.length ≤ 65535)
    (hinfo : info.length ≤ 65535) :
    finalizeAfterUnblindOne S x n info mode =
      .ok (S.hashH (i2osp2Arr x.length ++ x ++ i2osp2Arr info.length ++ info ++
        i2osp2Arr S.elemLen ++ S.serElem n ++
        i2osp2Arr (STR_FINALIZE ++ contextString S mode).length ++
        (STR_FINALIZE ++ contextString S mode))) := by
  unfold finalizeAfterUnblindOne
  rw [i2osp2_of_le hx2, i2osp2_of_le hinfo]

/-! ### Composite accumulation lemmas -/

/-- The first composite accumulator does not depend on the `useZ` flag or on
the `z` accumulator. -/
theorem compLoop_fst (S : Suite q) (seed : List ℕ) (u u' : Bool)
    (l : List (ZMod q × ZMod q)) :
    ∀ i m z z', (compLoop S seed u i l (m, z)).1 = (compLoop S seed u' i l (m, z')).1 := by
  induction l with
  | nil => intro i m z z'; rfl
  | cons cd rest ih =>
    intro i m z z'
    exact ih (i + 1) _ _ _

/-- With `useZ = false` the second accumulator is returned untouched. -/
theorem compLoop_snd_false (S : Suite q) (seed : List ℕ)
    (l : List (ZMod q × ZMod q)) :
    ∀ i m z, (compLoop S seed false i l (m, z)).2 = z := by
  induction l with
  | nil => intro i m z; rfl
  | cons cd rest ih =>
    intro i m z
    exact ih (i + 1) _ _

/-- When every pair satisfies `d = c·t`, the client-side `z` accumulator
tracks the `m` accumulator: `z_out − z_in = (m_out − m_in) · t`. -/
theorem compLoop_snd_mul (S : Suite q) (seed : List ℕ) (t : ZMod q)
    (l : List (ZMod q × ZMod q)) (hl : ∀ p ∈ l, p.2 = p.1 * t) :
    ∀ i m z, (compLoop S seed true i l (m, z)).2 =
      z + ((compLoop S seed true i l (m, z)).1 - m) * t := by
  induction l with
  | nil => intro i m z; simp [compLoop]
  | cons cd rest ih =>
    intro i m z
    have hcd : cd.2 = cd.1 * t := hl cd (List.mem_cons_self cd rest)
    have hrest : ∀ p ∈ rest, p.2 = p.1 * t := fun p hp => hl p (List.mem_cons_of_mem cd hp)
    show (compLoop S seed true (i + 1) rest
        (cd.1 * compositeScalar S seed i cd.1 cd.2 + m,
          cd.2 * compositeScalar S seed i cd.1 cd.2 + z)).2 = _
    rw [ih hrest (i + 1) (cd.1 * compositeScalar S seed i cd.1 cd.2 + m)
      (cd.2 * compositeScalar S seed i cd.1 cd.2 + z)]
    have hfst : (compLoop S seed true (i + 1) rest
        (cd.1 * compositeScalar S seed i cd.1 cd.2 + m,
          cd.2 * compositeScalar S seed i cd.1 cd.2 + z)).1 =
        (compLoop S seed true i (cd :: rest) (m, z)).1 := rfl
    rw [hfst, hcd]
    ring

/-- Server-side composites: the length checks pass and the shortcut
`Z = M·k` is taken. -/
theorem computeComposites_some (S : Suite q) (k b : ZMod q)
    (cs ds : List (ZMod q)) (hlen : cs.length = ds.length)
    (hn : cs.length ≤ 65535) :
    computeComposites S (some k) b cs ds =
      .ok ((compLoop S (seedBytes S b) false 0 (cs.zip ds) (0, 0)).1,
        (compLoop S (seedBytes S b) false 0 (cs.zip ds) (0, 0)).1 * k) := by
  unfold computeComposites
  rw [if_neg (by omega), if_neg (by omega)]
  rfl

/-- Client-side composites: the length checks pass and the accumulated pair is
returned. -/
theorem computeComposites_none (S : Suite q) (b : ZMod q)
    (cs ds : List (ZMod q)) (hlen : cs.length = ds.length)
    (hn : cs.length ≤ 65535) :
    computeComposites S none b cs ds =
      .ok (compLoop S (seedBytes S b) true 0 (cs.zip ds) (0, 0)) := by
  unfold computeComposites
  rw [if_neg (by omega), if_neg (by omega)]
  rfl

/-- In the zip of `cs` with `cs.map (· * t)` every pair satisfies
`d = c·t`. -/
theorem zip_map_pair_rel (t : ZMod q) (cs : List (ZMod q)) :
    ∀ p ∈ cs.zip (cs.map (· * t)), p.2 = p.1 * t := by
  induction cs with
  | nil => intro p hp; cases hp
  | cons c rest ih =>
    intro p hp
    rcases List.mem_cons.mp hp with h | h
    · subst h; rfl
    · exact ih p h

/-- When `ds = cs.map (· * t)`, the server-side and client-side composite
computations agree (the common value being `(M, M·t)`). -/
theorem computeComposites_agree (S : Suite q) (t b : ZMod q)
    (cs : List (ZMod q)) (hn : cs.length ≤ 65535) :
    computeComposites S (some t) b cs (cs.map (· * t)) =
      computeComposites S none b cs (cs.map (· * t)) := by
  have hlen : cs.length = (cs.map (· * t)).length := by simp
  rw [computeComposites_some S t b cs _ hlen hn,
    computeComposites_none S b cs _ hlen hn]
  have hz := compLoop_snd_mul S (seedBytes S b) t (cs.zip (cs.map (· * t)))
    (zip_map_pair_rel t cs) 0 0 0
  have hf := compLoop_fst S (seedBytes S b) false true (cs.zip (cs.map (· * t))) 0 0 0 0
  have hpair : compLoop S (seedBytes S b) true 0 (cs.zip (cs.map (· * t))) (0, 0) =
      ((compLoop S (seedBytes S b) true 0 (cs.zip (cs.map (· * t))) (0, 0)).1,
        (compLoop S (seedBytes S b) true 0 (cs.zip (cs.map (· * t))) (0, 0)).2) := rfl
  rw [hpair, hz, hf]
  simp

/-! ### Proof-engine lemmas -/

/-- Characterization of `generate_proof` on admissible batch lengths. -/
theorem generateProof_eq (S : Suite q) (r k a b : ZMod q) (cs ds : List (ZMod q))
    (hlen : cs.length = ds.length) (hn : cs.length ≤ 65535) :
    generateProof S r k a b cs ds =
      .ok ⟨challengeScalar S b
          ((compLoop S (seedBytes S b) false 0 (cs.zip ds) (0, 0)).1)
          ((compLoop S (seedBytes S b) false 0 (cs.zip ds) (0, 0)).1 * k)
          (a * r) ((compLoop S (seedBytes S b) false 0 (cs.zip ds) (0, 0)).1 * r),
        r - challengeScalar S b
          ((compLoop S (seedBytes S b) false 0 (cs.zip ds) (0, 0)).1)
          ((compLoop S (seedBytes S b) false 0 (cs.zip ds) (0, 0)).1 * k)
          (a * r) ((compLoop S (seedBytes S b) false 0 (cs.zip ds) (0, 0)).1 * r) * k⟩ := by
  unfold generateProof
  rw [computeComposites_some S k b cs ds hlen hn]

/-- A proof generated over pairs related by the common exponent `t` (with
`b = a·t`) verifies. -/
theorem verifyProof_of_generateProof (S : Suite q) (r t a : ZMod q)
    (cs : List (ZMod q)) (hn : cs.length ≤ 65535) (pf : Proof q)
    (hpf : generateProof S r t a (a * t) cs (cs.map (· * t)) = .ok pf) :
    verifyProof S a (a * t) cs (cs.map (· * t)) pf = .ok () := by
  have hlen : cs.length = (cs.map (· * t)).length := by simp
  rw [generateProof_eq S r t a (a * t) cs _ hlen hn] at hpf
  set M := (compLoop S (seedBytes S (a * t)) false 0 (cs.zip (cs.map (· * t))) (0, 0)).1
    with hM
  set c0 := challengeScalar S (a * t) M (M * t) (a * r) (M * r) with hc0
  have hpf2 : pf = ⟨c0, r - c0 * t⟩ := by
    cases hpf
    rfl
  subst hpf2
  unfold verifyProof
  rw [computeComposites_none S (a * t) cs _ hlen hn]
  dsimp only
  have hz := compLoop_snd_mul S (seedBytes S (a * t)) t (cs.zip (cs.map (· * t)))
    (zip_map_pair_rel t cs) 0 0 0
  have hf := compLoop_fst S (seedBytes S (a * t)) true false
    (cs.zip (cs.map (· * t))) 0 0 0 0
  rw [hf, ← hM] at hz
  have hfst : (compLoop S (seedBytes S (a * t)) true 0 (cs.zip (cs.map (· * t))) (0, 0)).1
      = M := by
    rw [hM]
    exact compLoop_fst S _ true false _ 0 0 0 0
  rw [hfst, hz]
  simp only [sub_zero, zero_add]
  have e2 : a * (r - c0 * t) + a * t * c0 = a * r := by ring
  have e3 : M * (r - c0 * t) + M * t * c0 = M * r := by ring
  rw [e2, e3, if_pos rfl]

/-- Honest evaluation elements re-multiplied by `t` give back the blinded
elements (for invertible `t`). -/
theorem map_unblind_map_t [Fact q.Prime] {t : ZMod q} (ht : t ≠ 0)
    (bs : List (ZMod q)) : (bs.map (· * invertScalar t)).map (· * t) = bs := by
  rw [List.map_map]
  conv_rhs => rw [← List.map_id bs]
  apply List.map_congr_left
  intro b _
  show b * invertScalar t * t = b
  rw [mul_assoc, mul_comm (invertScalar t) t, invertScalar_mul_cancel ht, mul_one]

/-- Honest verifiable unblinding: with matching metadata, an honestly
generated batch proof over the prepared evaluation elements, and
`pk = g·sk`, unblinding succeeds and unblinds each message with the paired
client's inverse blind. -/
theorem verifiableUnblind_honest [Fact q.Prime] (S : Suite q)
    (clients : List (VerifiableClient q)) (k r : ZMod q) {info : List ℕ}
    (hinfo : info.length ≤ 65514) (hn : clients.length ≤ 65535)
    (ht : k + mScalar S info .verifiable ≠ 0) (pf : Proof q)
    (hpf : generateProof S r (k + mScalar S info .verifiable) S.base
      (S.base * (k + mScalar S info .verifiable))
      ((clients.map (·.blindedElement)).map
        (· * invertScalar (k + mScalar S info .verifiable)))
      (clients.map (·.blindedElement)) = .ok pf) :
    verifiableUnblind S clients
      ((clients.map (·.blindedElement)).map
        (· * invertScalar (k + mScalar S info .verifiable)))
      (S.base * k) pf info =
      .ok ((clients.zip ((clients.map (·.blindedElement)).map
          (· * invertScalar (k + mScalar S info .verifiable)))).map
        fun p => p.2 * invertScalar p.1.blind) := by
  set t := k + mScalar S info .verifiable with hT
  set bs := clients.map (·.blindedElement) with hBs
  set es := bs.map (· * invertScalar t) with hEs
  unfold verifiableUnblind
  rw [i2osp2_of_le (by omega)]
  dsimp only
  rw [hashToScalarCS_context_of_le S .verifiable hinfo]
  dsimp only
  have hu : S.base * mScalar S info .verifiable + S.base * k = S.base * t := by
    rw [hT]; ring
  rw [hu]
  have hds : bs = es.map (· * t) := by
    rw [hEs, map_unblind_map_t ht]
  have hlen : es.length ≤ 65535 := by
    rw [hEs, hBs]; simpa using hn
  have hver : verifyProof S S.base (S.base * t) es bs pf = .ok () := by
    rw [hds]
    rw [hds] at hpf
    exact verifyProof_of_generateProof S r t S.base es hlen pf hpf
  rw [← hBs, hver]

/-- The singleton composite accumulation. -/
theorem compLoop_singleton_fst (S : Suite q) (seed : List ℕ) (u : Bool)
    (c d : ZMod q) :
    (compLoop S seed u 0 [(c, d)] (0, 0)).1 = c * compositeScalar S seed 0 c d := by
  cases u <;> simp [compLoop]

/-- `generate_proof` over a single honest pair produces `honestProof`. -/
theorem generateProof_singleton (S : Suite q) (r t E B : ZMod q) :
    generateProof S r t S.base (S.base * t) [E] [B] =
      .ok (honestProof S r t E B) := by
  rw [generateProof_eq S r t S.base (S.base * t) [E] [B] rfl (by norm_num)]
  have h1 : ([E].zip [B]) = [(E, B)] := rfl
  rw [h1, compLoop_singleton_fst S _ false E B]
  rfl

/-- Characterization of a successful `VerifiableServer::evaluate`: the
evaluation element is `B·(sk + m)⁻¹` and the proof is the honest singleton
proof. -/
theorem verifiableEvaluate_eq (S : Suite q) (k pk rp B : ZMod q) {info : List ℕ}
    (hinfo : info.length ≤ 65514) :
    VerifiableServer.evaluate S ⟨k, pk⟩ rp B info =
      .ok (honestEvalElem S k B info,
        honestProof S rp (k + mScalar S info .verifiable)
          (honestEvalElem S k B info) B) := by
  unfold VerifiableServer.evaluate
  rw [batchEvaluatePrepare_of_le S k pk [B] hinfo]
  dsimp only
  unfold batchEvaluateFinish
  dsimp only [List.map_cons, List.map_nil]
  rw [generateProof_singleton S rp (k + mScalar S info .verifiable)
    (B * invertScalar (k + mScalar S info .verifiable)) B]
  rfl

/-- `VerifiableServer::evaluate` on oversized metadata fails with
`Metadata`. -/
theorem verifiableEvaluate_of_gt (S : Suite q) (k pk rp B : ZMod q)
    {info : List ℕ} (h : 65514 < info.length) :
    VerifiableServer.evaluate S ⟨k, pk⟩ rp B info = .error .metadata := by
  unfold VerifiableServer.evaluate
  rw [batchEvaluatePrepare_of_gt S k pk [B] h]

/-- Honest batch finalize: with matching metadata and an honest batch proof,
`batch_finalize` returns the per-item finalize hashes of the unblinded
elements. -/
theorem batchFinalize_honest [Fact q.Prime] (S : Suite q) (xs : List (List ℕ))
    (clients : List (VerifiableClient q)) (k r : ZMod q) {info : List ℕ}
    (hinfo : info.length ≤ 65514) (hn : clients.length ≤ 65535)
    (ht : k + mScalar S info .verifiable ≠ 0) (pf : Proof q)
    (hpf : generateProof S r (k + mScalar S info .verifiable) S.base
      (S.base * (k + mScalar S info .verifiable))
      ((clients.map (·.blindedElement)).map
        (· * invertScalar (k + mScalar S info .verifiable)))
      (clients.map (·.blindedElement)) = .ok pf) :
    batchFinalize S xs clients
      ((clients.map (·.blindedElement)).map
        (· * invertScalar (k + mScalar S info .verifiable)))
      pf (S.base * k) info =
      .ok (finalizeAfterUnblind S
        (xs.zip ((clients.zip ((clients.map (·.blindedElement)).map
            (· * invertScalar (k + mScalar S info .verifiable)))).map
          fun p => p.2 * invertScalar p.1.blind))
        info .verifiable) := by
  unfold batchFinalize
  rw [verifiableUnblind_honest S clients k r hinfo hn ht pf hpf]

/-- Honest single verifiable finalize, general form: the proof over the
single honest pair verifies, and the result is the single-item finalize hash
of the unblinded element. -/
theorem verifiableFinalize_honest_eq [Fact q.Prime] (S : Suite q) (x : List ℕ)
    (bl B k r : ZMod q) {info : List ℕ} (hinfo : info.length ≤ 65514)
    (ht : k + mScalar S info .verifiable ≠ 0) (pf : Proof q)
    (hpf : generateProof S r (k + mScalar S info .verifiable) S.base
      (S.base * (k + mScalar S info .verifiable))
      [B * invertScalar (k + mScalar S info .verifiable)] [B] = .ok pf) :
    VerifiableClient.finalize S ⟨bl, B⟩ x
      (B * invertScalar (k + mScalar S info .verifiable)) pf (S.base * k) info =
      finalizeAfterUnblindOne S x
        (B * invertScalar (k + mScalar S info .verifiable) * invertScalar bl)
        info .verifiable := by
  unfold VerifiableClient.finalize
  have hmsgs : (([⟨bl, B⟩] : List (VerifiableClient q)).map (·.blindedElement)).map
      (· * invertScalar (k + mScalar S info .verifiable)) =
      [B * invertScalar (k + mScalar S info .verifiable)] := rfl
  have hpf2 : generateProof S r (k + mScalar S info .verifiable) S.base
      (S.base * (k + mScalar S info .verifiable))
      ((([⟨bl, B⟩] : List (VerifiableClient q)).map (·.blindedElement)).map
        (· * invertScalar (k + mScalar S info .verifiable)))
      (([⟨bl, B⟩] : List (VerifiableClient q)).map (·.blindedElement)) = .ok pf := by
    rw [hmsgs]
    exact hpf
  have hbf := batchFinalize_honest S [x] [⟨bl, B⟩] k r hinfo (by norm_num) ht pf hpf2
  rw [hmsgs] at hbf
  rw [hbf]
  dsimp only [List.zip_cons_cons, List.zip_nil_right, List.map_cons, List.map_nil,
    finalizeAfterUnblind]

/-- Honest single verifiable finalize: the proof over the single honest pair
verifies and the framed output hash is returned. -/
theorem verifiableFinalize_honest [Fact q.Prime] (S : Suite q) (x : List ℕ)
    (bl B k r : ZMod q) {info : List ℕ} (hx2 : x.length ≤ 65535)
    (hinfo : info.length ≤ 65514)
    (ht : k + mScalar S info .verifiable ≠ 0) (pf : Proof q)
    (hpf : generateProof S r (k + mScalar S info .verifiable) S.base
      (S.base * (k + mScalar S info .verifiable))
      [B * invertScalar (k + mScalar S info .verifiable)] [B] = .ok pf) :
    VerifiableClient.finalize S ⟨bl, B⟩ x
      (B * invertScalar (k + mScalar S info .verifiable)) pf (S.base * k) info =
      .ok (S.hashH (i2osp2Arr x.length ++ x ++ i2osp2Arr info.length ++ info ++
        i2osp2Arr S.elemLen ++
        S.serElem (B * invertScalar (k + mScalar S info .verifiable) *
          invertScalar bl) ++
        i2osp2Arr (STR_FINALIZE ++ contextString S .verifiable).length ++
        (STR_FINALIZE ++ contextString S .verifiable))) := by
  rw [verifiableFinalize_honest_eq S x bl B k r hinfo ht pf hpf]
  rw [finalizeAfterUnblindOne_of_valid S _ .verifiable hx2 (by omega)]

/-- `compute_composites` only ever fails with `Batch`. -/
theorem computeComposites_error (S : Suite q) (kO : Option (ZMod q)) (b : ZMod q)
    (cs ds : List (ZMod q)) {e : Error}
    (h : computeComposites S kO b cs ds = .error e) : e = .batch := by
  unfold computeComposites at h
  by_cases h1 : cs.length ≠ ds.length
  · rw [if_pos h1] at h
    cases h
    rfl
  · rw [if_neg h1] at h
    by_cases h2 : 65535 < cs.length
    · rw [if_pos h2] at h
      cases h
      rfl
    · rw [if_neg h2] at h
      cases kO <;> cases h

/-- `verify_proof` never fails with `Metadata`. -/
theorem verifyProof_ne_metadata (S : Suite q) (a b : ZMod q)
    (cs ds : List (ZMod q)) (pf : Proof q) :
    verifyProof S a b cs ds pf ≠ .error .metadata := by
  unfold verifyProof
  cases hcc : computeComposites S none b cs ds with
  | error e =>
    have he := computeComposites_error S none b cs ds hcc
    subst he
    intro h
    cases h
  | ok mz =>
    dsimp only
    split
    · intro h; cases h
    · intro h; cases h

/-- `verifiable_unblind` fails with `Metadata` exactly on oversized
metadata. -/
theorem verifiableUnblind_metadata_iff (S : Suite q)
    (clients : List (VerifiableClient q)) (messages : List (ZMod q))
    (pk : ZMod q) (pf : Proof q) (info : List ℕ) :
    verifiableUnblind S clients messages pk pf info = .error .metadata ↔
      65514 < info.length := by
  constructor
  · intro h
    by_contra hle
    push_neg at hle
    unfold verifiableUnblind at h
    rw [i2osp2_of_le (by omega)] at h
    dsimp only at h
    rw [hashToScalarCS_context_of_le S .verifiable hle] at h
    dsimp only at h
    cases hver : verifyProof S S.base
        (S.base * mScalar S info .verifiable + pk) messages
        (clients.map (·.blindedElement)) pf with
    | error e =>
      rw [hver] at h
      cases h
      exact verifyProof_ne_metadata S _ _ _ _ _ hver
    | ok u =>
      rw [hver] at h
      cases h
  · intro h
    unfold verifiableUnblind
    by_cases h65535 : info.length ≤ 65535
    · rw [i2osp2_of_le h65535]
      dsimp only
      rw [hashToScalarCS_context_of_gt S .verifiable h]
    · rw [i2osp2_of_gt (by omega)]

/-! ### Claim theorems -/

/-- C1 (amended): for every input `x` with `1 ≤ |x| ≤ 65535`, every metadata
`info` with `|info| ≤ 65535 − 21`, every blinding scalar `r ≠ 0` produced by
the RNG, and every server key `k`, chaining base-mode blind, evaluate, and
finalize succeeds and returns the reference PRF value
`H(framed(x, info, hash_to_curve(x) · (k+m)⁻¹))`; the blind cancels and the
output does not depend on `r`. -/
theorem base_prf_correctness (q : ℕ) [Fact q.Prime] (S : Suite q)
    (x info : List ℕ) (r k : ZMod q) (hx1 : x ≠ []) (hx2 : x.length ≤ 65535)
    (hinfo : info.length ≤ 65514) (hr : r ≠ 0) :
    ∃ client B E, nonVerifiableBlind S x r = .ok (client, B) ∧
      NonVerifiableServer.evaluate S ⟨k⟩ B info = .ok E ∧
      NonVerifiableClient.finalize S client x E info =
        .ok (prfReference S x k info .base) := by
  set P := S.hashCurve x (hashToGroupDST S .base) with hP
  set t := k + mScalar S info .base with hT
  refine ⟨⟨r⟩, P * r, P * r * invertScalar t, ?_, ?_, ?_⟩
  · unfold nonVerifiableBlind deterministicBlindUnchecked
    rw [hashToCurveCS_single_of_valid S .base hx1 hx2]
  · exact evaluateBase_of_le S k (P * r) hinfo
  · unfold NonVerifiableClient.finalize
    dsimp only
    have hcancel : P * r * invertScalar t * invertScalar r = P * invertScalar t := by
      rw [invertScalar_eq_inv r]
      have : P * r * invertScalar t * r⁻¹ = P * invertScalar t * (r * r⁻¹) := by ring
      rw [this, mul_inv_cancel₀ hr, mul_one]
    rw [hcancel, finalizeAfterUnblindOne_of_valid S _ .base hx2 (by omega)]
    rfl

/-- C1 witness: the amended chain on the toy suite. -/
theorem base_prf_correctness_witness :
    ∃ client B E, nonVerifiableBlind toySuite [1] 2 = .ok (client, B) ∧
      NonVerifiableServer.evaluate toySuite ⟨4⟩ B [7] = .ok E ∧
      NonVerifiableClient.finalize toySuite client [1] E [7] =
        .ok (prfReference toySuite [1] 4 [7] .base) := by
  have hr : (2 : ZMod 11) ≠ 0 := by decide
  haveI : Fact (Nat.Prime 11) := ⟨by norm_num⟩
  exact base_prf_correctness 11 toySuite [1] [7] 2 4 (by decide) (by decide)
    (by decide) hr

/-- C1 counterexample: as literally stated the claim quantifies over every
metadata `info`, but on metadata of length `65515 > 65535 − 21` the chain
fails with `Metadata` instead of succeeding. -/
theorem base_prf_correctness_cex :
    (match nonVerifiableBlind toySuite [1] 2 with
      | .ok sb => NonVerifiableServer.evaluate toySuite ⟨1⟩ sb.2 (List.replicate 65515 0)
      | .error e => .error e) = .error .metadata := by
  have hb : nonVerifiableBlind toySuite [1] 2 =
      .ok (⟨2⟩, toySuite.hashCurve [1] (hashToGroupDST toySuite .base) * 2) := by decide
  rw [hb]
  refine evaluateBase_of_gt toySuite 1 _ ?_
  rw [List.length_replicate]
  omega

/-- C3 (amended): the code does not reject `t = sk + m = 0`: base-mode
evaluate returns `EvaluationElement(B · invert_scalar(0)) = identity` and the
verifiable batch preparation likewise maps every blinded element to the
identity, since `invert_scalar 0 = 0`. -/
theorem evaluate_zero_t_amended (q : ℕ) (S : Suite q) (info : List ℕ)
    (hinfo : info.length ≤ 65514) :
    (∀ sk B : ZMod q, sk + mScalar S info .base = 0 →
      NonVerifiableServer.evaluate S ⟨sk⟩ B info = .ok 0) ∧
    (∀ (sk pk : ZMod q) (bs : List (ZMod q)),
      sk + mScalar S info .verifiable = 0 →
      VerifiableServer.batchEvaluatePrepare S ⟨sk, pk⟩ bs info =
        .ok (bs.map (fun _ => (0 : ZMod q)), 0)) := by
  constructor
  · intro sk B hz
    rw [evaluateBase_of_le S sk B hinfo, hz]
    simp [invertScalar]
  · intro sk pk bs hz
    rw [batchEvaluatePrepare_of_le S sk pk bs hinfo, hz]
    simp [invertScalar]

/-- C3 witness: a toy-suite key colliding with the negated metadata scalar. -/
theorem evaluate_zero_t_witness :
    NonVerifiableServer.evaluate toySuite ⟨-(mScalar toySuite [7] .base)⟩ 5 [7] =
      .ok 0 :=
  (evaluate_zero_t_amended 11 toySuite [7] (by decide)).1
    (-(mScalar toySuite [7] .base)) 5 (by decide)

/-- C3 counterexample: with `sk = −m` (so `t = 0`) the base-mode evaluate
does not fail with `Metadata`; it succeeds, returning the identity element. -/
theorem evaluate_zero_t_cex :
    NonVerifiableServer.evaluate toySuite ⟨-(mScalar toySuite [7] .base)⟩ 5 [7] ≠
      .error .metadata := by decide

/-- C5: the metadata length validation of the server-side evaluate paths and
of the client-side verifiable unblinding fails with `Metadata` exactly when
`|info| > 65535 − 21 = 65514`. -/
theorem metadata_length_check (q : ℕ) (S : Suite q) (sk pk B rp : ZMod q)
    (bs : List (ZMod q)) (clients : List (VerifiableClient q))
    (messages : List (ZMod q)) (pf : Proof q) (info : List ℕ) :
    (NonVerifiableServer.evaluate S ⟨sk⟩ B info = .error .metadata ↔
      65514 < info.length) ∧
    (VerifiableServer.evaluate S ⟨sk, pk⟩ rp B info = .error .metadata ↔
      65514 < info.length) ∧
    (VerifiableServer.batchEvaluatePrepare S ⟨sk, pk⟩ bs info = .error .metadata ↔
      65514 < info.length) ∧
    (verifiableUnblind S clients messages pk pf info = .error .metadata ↔
      65514 < info.length) := by
  refine ⟨⟨?_, ?_⟩, ⟨?_, ?_⟩, ⟨?_, ?_⟩, verifiableUnblind_metadata_iff S _ _ _ _ _⟩
  · intro h
    by_contra hle
    push_neg at hle
    rw [evaluateBase_of_le S sk B hle] at h
    cases h
  · intro h
    exact evaluateBase_of_gt S sk B h
  · intro h
    by_contra hle
    push_neg at hle
    rw [verifiableEvaluate_eq S sk pk rp B hle] at h
    cases h
  · intro h
    exact verifiableEvaluate_of_gt S sk pk rp B h
  · intro h
    by_contra hle
    push_neg at hle
    rw [batchEvaluatePrepare_of_le S sk pk bs hle] at h
    cases h
  · intro h
    exact batchEvaluatePrepare_of_gt S sk pk bs h

/-- C5 witness: the two sides of the characterization on the toy suite. -/
theorem metadata_length_check_witness :
    (NonVerifiableServer.evaluate toySuite ⟨4⟩ 5 [7] = .error .metadata ↔
      65514 < ([7] : List ℕ).length) ∧
    (VerifiableServer.evaluate toySuite ⟨4, 8⟩ 3 5 [7] = .error .metadata ↔
      65514 < ([7] : List ℕ).length) ∧
    (VerifiableServer.batchEvaluatePrepare toySuite ⟨4, 8⟩ [5] [7] =
      .error .metadata ↔ 65514 < ([7] : List ℕ).length) ∧
    (verifiableUnblind toySuite [⟨2, 5⟩] [6] 8 ⟨1, 2⟩ [7] = .error .metadata ↔
      65514 < ([7] : List ℕ).length) :=
  metadata_length_check 11 toySuite 4 8 5 3 [5] [⟨2, 5⟩] [6] ⟨1, 2⟩ [7]

/-- C6: client blinding fails with `Input` exactly when the input is empty or
longer than 65535 bytes, and succeeds on every input of admissible length. -/
theorem blind_input_check (q : ℕ) (S : Suite q) (x : List ℕ) (r : ZMod q) :
    (nonVerifiableBlind S x r = .error .input ↔ (x = [] ∨ 65535 < x.length)) ∧
    (verifiableBlind S x r = .error .input ↔ (x = [] ∨ 65535 < x.length)) ∧
    (x ≠ [] → x.length ≤ 65535 →
      nonVerifiableBlind S x r =
        .ok (⟨r⟩, S.hashCurve x (hashToGroupDST S .base) * r)) := by
  have hlen0 : x.length = 0 ↔ x = [] := List.length_eq_zero
  refine ⟨⟨?_, ?_⟩, ⟨?_, ?_⟩, ?_⟩
  · intro h
    by_contra hc
    push_neg at hc
    unfold nonVerifiableBlind deterministicBlindUnchecked at h
    rw [hashToCurveCS_single_of_valid S .base hc.1 (by omega)] at h
    cases h
  · intro h
    unfold nonVerifiableBlind deterministicBlindUnchecked
    rw [hashToCurveCS_single_of_invalid S .base (h.imp hlen0.mpr id)]
  · intro h
    by_contra hc
    push_neg at hc
    unfold verifiableBlind deterministicBlindUnchecked at h
    rw [hashToCurveCS_single_of_valid S .verifiable hc.1 (by omega)] at h
    cases h
  · intro h
    unfold verifiableBlind deterministicBlindUnchecked
    rw [hashToCurveCS_single_of_invalid S .verifiable (h.imp hlen0.mpr id)]
  · intro h1 h2
    unfold nonVerifiableBlind deterministicBlindUnchecked
    rw [hashToCurveCS_single_of_valid S .base h1 h2]

/-- C6 witness: the characterization evaluated on the empty input. -/
theorem blind_input_check_witness :
    (nonVerifiableBlind toySuite [] 2 = .error .input ↔
      (([] : List ℕ) = [] ∨ 65535 < ([] : List ℕ).length)) ∧
    (verifiableBlind toySuite [] 2 = .error .input ↔
      (([] : List ℕ) = [] ∨ 65535 < ([] : List ℕ).length)) ∧
    (([] : List ℕ) ≠ [] → ([] : List ℕ).length ≤ 65535 →
      nonVerifiableBlind toySuite [] 2 =
        .ok (⟨2⟩, toySuite.hashCurve [] (hashToGroupDST toySuite .base) * 2)) :=
  blind_input_check 11 toySuite [] 2

/-- C10: with `Dᵢ = Cᵢ · k` and an admissible batch length, the server-side
composite computation (with the shortcut `Z = M·k`) and the client-side
accumulation return the same pair. -/
theorem compute_composites_agreement (q : ℕ) (S : Suite q) (k b : ZMod q)
    (cs ds : List (ZMod q)) (hds : ds = cs.map (· * k))
    (hn : cs.length ≤ 65535) :
    computeComposites S (some k) b cs ds = computeComposites S none b cs ds := by
  subst hds
  exact computeComposites_agree S k b cs hn

/-- The reference PRF written out. -/
theorem prfReference_def (S : Suite q) (x : List ℕ) (k : ZMod q) (info : List ℕ)
    (mode : Mode) :
    prfReference S x k info mode =
      S.hashH (i2osp2Arr x.length ++ x ++ i2osp2Arr info.length ++ info ++
        i2osp2Arr S.elemLen ++
        S.serElem (S.hashCurve x (hashToGroupDST S mode) *
          invertScalar (k + mScalar S info mode)) ++
        i2osp2Arr (STR_FINALIZE ++ contextString S mode).length ++
        (STR_FINALIZE ++ contextString S mode)) := rfl

/-- C2 (amended): for every input `x` with `1 ≤ |x| ≤ 65535`, metadata with
`|info| ≤ 65535 − 21`, RNG outputs `rb ≠ 0` (blind) and `rp` (proof nonce),
and key `k` with `sk + m ≠ 0`, the verifiable chain blind, evaluate
(producing an evaluation element and a proof that verifies against
`pk = g·k`), and finalize succeeds and returns the verifiable-mode reference
PRF value. -/
theorem verifiable_prf_correctness (q : ℕ) [Fact q.Prime] (S : Suite q)
    (x info : List ℕ) (rb rp k : ZMod q) (hx1 : x ≠ []) (hx2 : x.length ≤ 65535)
    (hinfo : info.length ≤ 65514) (hrb : rb ≠ 0)
    (ht : k + mScalar S info .verifiable ≠ 0) :
    ∃ client B E pf, verifiableBlind S x rb = .ok (client, B) ∧
      VerifiableServer.evaluate S ⟨k, S.base * k⟩ rp B info = .ok (E, pf) ∧
      VerifiableClient.finalize S client x E pf (S.base * k) info =
        .ok (prfReference S x k info .verifiable) := by
  set P := S.hashCurve x (hashToGroupDST S .verifiable) with hP
  set t := k + mScalar S info .verifiable with hT
  refine ⟨⟨rb, P * rb⟩, P * rb, honestEvalElem S k (P * rb) info,
    honestProof S rp t (honestEvalElem S k (P * rb) info) (P * rb), ?_, ?_, ?_⟩
  · unfold verifiableBlind deterministicBlindUnchecked
    rw [hashToCurveCS_single_of_valid S .verifiable hx1 hx2]
  · exact verifiableEvaluate_eq S k (S.base * k) rp (P * rb) hinfo
  · have hpf : generateProof S rp t S.base (S.base * t)
        [P * rb * invertScalar t] [P * rb] =
        .ok (honestProof S rp t (P * rb * invertScalar t) (P * rb)) :=
      generateProof_singleton S rp t (P * rb * invertScalar t) (P * rb)
    have hfin := verifiableFinalize_honest S x rb (P * rb) k rp hx2 hinfo ht
      (honestProof S rp t (P * rb * invertScalar t) (P * rb)) hpf
    have hel : P * rb * invertScalar t * invertScalar rb = P * invertScalar t := by
      rw [invertScalar_eq_inv rb]
      have : P * rb * invertScalar t * rb⁻¹ = P * invertScalar t * (rb * rb⁻¹) := by
        ring
      rw [this, mul_inv_cancel₀ hrb, mul_one]
    rw [hel] at hfin
    rw [prfReference_def]
    exact hfin

/-- C2 witness: the amended verifiable chain on the toy suite. -/
theorem verifiable_prf_correctness_witness :
    ∃ client B E pf, verifiableBlind toySuite [1] 2 = .ok (client, B) ∧
      VerifiableServer.evaluate toySuite ⟨4, toySuite.base * 4⟩ 3 B [7] =
        .ok (E, pf) ∧
      VerifiableClient.finalize toySuite client [1] E pf (toySuite.base * 4) [7] =
        .ok (prfReference toySuite [1] 4 [7] .verifiable) := by
  have hrb : (2 : ZMod 11) ≠ 0 := by decide
  have ht : (4 : ZMod 11) + mScalar toySuite [7] .verifiable ≠ 0 := by decide
  haveI : Fact (Nat.Prime 11) := ⟨by norm_num⟩
  exact verifiable_prf_correctness 11 toySuite [1] [7] 2 3 4 (by decide)
    (by decide) (by decide) hrb ht

set_option maxRecDepth 2000000 in
/-- C2 counterexample: with `k = −m` (so `t = 0`, permitted by the claim's
quantification over every key) the honest evaluation element is the identity
and the client's recomputed composites no longer match the server's, so
finalize fails with `ProofVerification` instead of returning the reference
value. -/
theorem verifiable_prf_correctness_cex :
    (match VerifiableServer.evaluate toySuite
        ⟨-(mScalar toySuite [7] .verifiable),
          toySuite.base * -(mScalar toySuite [7] .verifiable)⟩ 3
        (toySuite.hashCurve [1] (hashToGroupDST toySuite .verifiable) * 2) [7] with
      | .ok ep => VerifiableClient.finalize toySuite
          ⟨2, toySuite.hashCurve [1] (hashToGroupDST toySuite .verifiable) * 2⟩
          [1] ep.1 ep.2
          (toySuite.base * -(mScalar toySuite [7] .verifiable)) [7]
      | .error e => .error e) = .error .proofVerification := by decide

/-- Zipping a list with a mapped copy of itself pairs each entry with its
image. -/
theorem zip_self_map {α β : Type} (l : List α) (f : α → β) :
    l.zip (l.map f) = l.map fun a => (a, f a) := by
  induction l with
  | nil => rfl
  | cons a t ih => simp [ih]

/-- C7 (amended): with honest evaluation elements, matching metadata, an
honest batch proof, and `sk + m ≠ 0`, `batch_finalize` yields exactly the
sequence of results of the `n` independent single finalizations that reuse
the same `(blind_i, B_i)` — each single finalization being given a proof
generated for its own singleton pair (the shared batch proof does not verify
for a proper sub-batch; see the counterexample). -/
theorem batch_finalize_equivalence (q : ℕ) [Fact q.Prime] (S : Suite q)
    (xs : List (List ℕ)) (clients : List (VerifiableClient q)) (k rp : ZMod q)
    (info : List ℕ) (hinfo : info.length ≤ 65514) (hn : clients.length ≤ 65535)
    (ht : k + mScalar S info .verifiable ≠ 0) (pf : Proof q)
    (hpf : generateProof S rp (k + mScalar S info .verifiable) S.base
      (S.base * (k + mScalar S info .verifiable))
      ((clients.map (·.blindedElement)).map
        (· * invertScalar (k + mScalar S info .verifiable)))
      (clients.map (·.blindedElement)) = .ok pf) :
    batchFinalize S xs clients
      ((clients.map (·.blindedElement)).map
        (· * invertScalar (k + mScalar S info .verifiable)))
      pf (S.base * k) info =
      .ok ((xs.zip clients).map fun p =>
        VerifiableClient.finalize S p.2 p.1
          (p.2.blindedElement * invertScalar (k + mScalar S info .verifiable))
          (honestProof S rp (k + mScalar S info .verifiable)
            (p.2.blindedElement * invertScalar (k + mScalar S info .verifiable))
            p.2.blindedElement)
          (S.base * k) info) := by
  set t := k + mScalar S info .verifiable with hT
  rw [batchFinalize_honest S xs clients k rp hinfo hn ht pf hpf]
  congr 1
  have hunbl : (clients.zip ((clients.map (·.blindedElement)).map
      (· * invertScalar t))).map (fun p => p.2 * invertScalar p.1.blind) =
      clients.map fun c =>
        c.blindedElement * invertScalar t * invertScalar c.blind := by
    rw [List.map_map, zip_self_map, List.map_map]
    rfl
  rw [hunbl]
  unfold finalizeAfterUnblind
  rw [List.zip_map_right, List.map_map]
  apply List.map_congr_left
  intro p _
  have hsingle := verifiableFinalize_honest_eq S p.1 p.2.blind p.2.blindedElement
    k rp hinfo ht
    (honestProof S rp t (p.2.blindedElement * invertScalar t) p.2.blindedElement)
    (generateProof_singleton S rp t
      (p.2.blindedElement * invertScalar t) p.2.blindedElement)
  dsimp only [Function.comp, Prod.map, id]
  rw [← hT] at hsingle
  rw [← hsingle]

/-- The key-plus-metadata scalar of the concrete C7 batch. -/
def c7t : ZMod 11 := 4 + mScalar toySuite [7] .verifiable

/-- Two concrete verifiable client states for the C7 batch. -/
def c7clients : List (VerifiableClient 11) := [⟨2, 5⟩, ⟨3, 7⟩]

/-- The honest evaluation elements of the concrete C7 batch. -/
def c7es : List (ZMod 11) :=
  (c7clients.map (·.blindedElement)).map (· * invertScalar c7t)

/-- The shared honest batch proof of the concrete C7 batch. -/
def c7pf : Proof 11 :=
  match generateProof toySuite 3 c7t toySuite.base (toySuite.base * c7t) c7es
      (c7clients.map (·.blindedElement)) with
  | .ok p => p
  | .error _ => ⟨0, 0⟩

set_option maxRecDepth 2000000 in
/-- C7 witness: the amended equivalence on a concrete two-element batch. -/
theorem batch_finalize_equivalence_witness :
    batchFinalize toySuite [[1], [2]] c7clients c7es c7pf (toySuite.base * 4) [7] =
      .ok ((([[1], [2]] : List (List ℕ)).zip c7clients).map fun p =>
        VerifiableClient.finalize toySuite p.2 p.1
          (p.2.blindedElement * invertScalar (4 + mScalar toySuite [7] .verifiable))
          (honestProof toySuite 3 (4 + mScalar toySuite [7] .verifiable)
            (p.2.blindedElement *
              invertScalar (4 + mScalar toySuite [7] .verifiable))
            p.2.blindedElement)
          (toySuite.base * 4) [7]) := by
  have ht : (4 : ZMod 11) + mScalar toySuite [7] .verifiable ≠ 0 := by decide
  have hpf : generateProof toySuite 3 (4 + mScalar toySuite [7] .verifiable)
      toySuite.base (toySuite.base * (4 + mScalar toySuite [7] .verifiable))
      ((c7clients.map (·.blindedElement)).map
        (· * invertScalar (4 + mScalar toySuite [7] .verifiable)))
      (c7clients.map (·.blindedElement)) = .ok c7pf := by decide
  haveI : Fact (Nat.Prime 11) := ⟨by norm_num⟩
  exact batch_finalize_equivalence 11 toySuite [[1], [2]] c7clients 4 3 [7]
    (by decide) (by decide) ht c7pf hpf

set_option maxRecDepth 2000000 in
/-- C7 counterexample: as literally stated, the `n` single finalizations
share the one batch proof; on a concrete two-element batch the first single
finalization with the shared proof fails with `ProofVerification` while the
first batch output succeeds, so the sequences differ. -/
theorem batch_finalize_equivalence_cex :
    (match batchFinalize toySuite [[1], [2]] c7clients c7es c7pf
        (toySuite.base * 4) [7] with
      | .ok outs => outs.headD (.error .batch)
      | .error e => .error e) ≠
      VerifiableClient.finalize toySuite ⟨2, 5⟩ [1] (5 * invertScalar c7t) c7pf
        (toySuite.base * 4) [7] ∧
    VerifiableClient.finalize toySuite ⟨2, 5⟩ [1] (5 * invertScalar c7t) c7pf
      (toySuite.base * 4) [7] = .error .proofVerification := by
  constructor <;> decide

/-! ### Codec lemmas -/

theorem natToBytesBE_length (len n : ℕ) : (natToBytesBE len n).length = len := by
  induction len generalizing n with
  | zero => rfl
  | succ l ih => simp [natToBytesBE, ih]

theorem natToBytesBE_lt (len n : ℕ) : ∀ b ∈ natToBytesBE len n, b < 256 := by
  induction len generalizing n with
  | zero => intro b hb; cases hb
  | succ l ih =>
    intro b hb
    rcases List.mem_append.mp hb with h | h
    · exact ih (n / 256) b h
    · rcases List.mem_singleton.mp h with rfl
      exact Nat.mod_lt _ (by omega)

theorem bytesToNatBE_append_singleton (l : List ℕ) (b : ℕ) :
    bytesToNatBE (l ++ [b]) = bytesToNatBE l * 256 + b := by
  unfold bytesToNatBE
  rw [List.foldl_append]
  rfl

theorem bytesToNatBE_natToBytesBE {len n : ℕ} (h : n < 256 ^ len) :
    bytesToNatBE (natToBytesBE len n) = n := by
  induction len generalizing n with
  | zero =>
    interval_cases n
    rfl
  | succ l ih =>
    have hdiv : n / 256 < 256 ^ l := by
      rw [pow_succ] at h
      omega
    unfold natToBytesBE
    rw [bytesToNatBE_append_singleton, ih hdiv]
    omega

/-- The spec-modelled scalar codec round-trips on nonzero scalars. -/
theorem scalar_roundtrip [NeZero q] {sLen : ℕ} (hq : q ≤ 256 ^ sLen)
    {s : ZMod q} (hs : s ≠ 0) :
    deserializeScalarM sLen (serializeScalarM sLen s) = .ok s := by
  have hval : s.val < q := ZMod.val_lt s
  have hdec : bytesToNatBE (natToBytesBE sLen s.val) = s.val :=
    bytesToNatBE_natToBytesBE (by omega)
  unfold deserializeScalarM serializeScalarM
  rw [if_pos ⟨natToBytesBE_length sLen s.val, natToBytesBE_lt sLen s.val,
    by rw [hdec]; exact (ZMod.val_ne_zero s).mpr hs, by rw [hdec]; exact hval⟩]
  rw [hdec]
  exact congrArg Except.ok (ZMod.natCast_rightInverse s)

/-- The spec-modelled element codec round-trips on non-identity elements. -/
theorem elem_roundtrip [NeZero q] {eLen : ℕ} (hq : q ≤ 256 ^ eLen)
    {e : ZMod q} (he : e ≠ 0) :
    deserializeElemM eLen (serializeElemM eLen e) = .ok e := by
  have hval : e.val < q := ZMod.val_lt e
  have hdec : bytesToNatBE (natToBytesBE eLen e.val) = e.val :=
    bytesToNatBE_natToBytesBE (by omega)
  unfold deserializeElemM serializeElemM
  rw [if_pos ⟨natToBytesBE_length eLen e.val, natToBytesBE_lt eLen e.val,
    by rw [hdec]; exact (ZMod.val_ne_zero e).mpr he, by rw [hdec]; exact hval⟩]
  rw [hdec]
  exact congrArg Except.ok (ZMod.natCast_rightInverse e)

/-- The streaming scalar reader on a serialized scalar followed by any
rest. -/
theorem readScalar_append [NeZero q] {sLen : ℕ} (hq : q ≤ 256 ^ sLen)
    {s : ZMod q} (hs : s ≠ 0) (rest : List ℕ) :
    readScalar sLen (serializeScalarM sLen s ++ rest) = .ok (s, rest) := by
  have hl : (serializeScalarM (q := q) sLen s).length = sLen :=
    natToBytesBE_length sLen s.val
  unfold readScalar
  rw [List.take_left' hl, List.drop_left' hl, scalar_roundtrip hq hs]

/-- The streaming element reader on a serialized element followed by any
rest. -/
theorem readElem_append [NeZero q] {eLen : ℕ} (hq : q ≤ 256 ^ eLen)
    {e : ZMod q} (he : e ≠ 0) (rest : List ℕ) :
    readElem eLen (serializeElemM eLen e ++ rest) = .ok (e, rest) := by
  have hl : (serializeElemM (q := q) eLen e).length = eLen :=
    natToBytesBE_length eLen e.val
  unfold readElem
  rw [List.take_left' hl, List.drop_left' hl, elem_roundtrip hq he]

/-- C8: deserialization inverts serialization on every API value built from
nonzero scalars and non-identity elements: both client states, both server
states, both wire elements, and the proof. -/
theorem serialization_roundtrip (q : ℕ) [NeZero q] (sLen eLen : ℕ)
    (hsq : q ≤ 256 ^ sLen) (heq : q ≤ 256 ^ eLen)
    (bl sk c s B pk E : ZMod q) (hbl : bl ≠ 0) (hsk : sk ≠ 0) (hc : c ≠ 0)
    (hs : s ≠ 0) (hB : B ≠ 0) (hpk : pk ≠ 0) (hE : E ≠ 0) :
    NonVerifiableClient.deserialize sLen
      (NonVerifiableClient.serialize sLen ⟨bl⟩) = .ok ⟨bl⟩ ∧
    VerifiableClient.deserialize sLen eLen
      (VerifiableClient.serialize sLen eLen ⟨bl, B⟩) = .ok ⟨bl, B⟩ ∧
    NonVerifiableServer.deserialize sLen
      (NonVerifiableServer.serialize sLen ⟨sk⟩) = .ok ⟨sk⟩ ∧
    VerifiableServer.deserialize sLen eLen
      (VerifiableServer.serialize sLen eLen ⟨sk, pk⟩) = .ok ⟨sk, pk⟩ ∧
    deserializeBlindedElement eLen (serializeBlindedElement eLen B) = .ok B ∧
    deserializeEvaluationElement eLen
      (serializeEvaluationElement eLen E) = .ok E ∧
    Proof.deserialize sLen (Proof.serialize sLen ⟨c, s⟩) = .ok ⟨c, s⟩ := by
  have hrs : ∀ (a : ZMod q), a ≠ 0 → ∀ rest,
      readScalar sLen (serializeScalarM sLen a ++ rest) = .ok (a, rest) :=
    fun a ha rest => readScalar_append hsq ha rest
  have hre : ∀ (a : ZMod q), a ≠ 0 → ∀ rest,
      readElem eLen (serializeElemM eLen a ++ rest) = .ok (a, rest) :=
    fun a ha rest => readElem_append heq ha rest
  refine ⟨?_, ?_, ?_, ?_, ?_, ?_, ?_⟩
  · unfold NonVerifiableClient.deserialize NonVerifiableClient.serialize
    rw [show serializeScalarM (q := q) sLen bl =
      serializeScalarM sLen bl ++ [] from (List.append_nil _).symm, hrs bl hbl []]
  · unfold VerifiableClient.deserialize VerifiableClient.serialize
    rw [hrs bl hbl _]
    dsimp only
    rw [show serializeElemM (q := q) eLen B =
      serializeElemM eLen B ++ [] from (List.append_nil _).symm, hre B hB []]
  · unfold NonVerifiableServer.deserialize NonVerifiableServer.serialize
    rw [show serializeScalarM (q := q) sLen sk =
      serializeScalarM sLen sk ++ [] from (List.append_nil _).symm, hrs sk hsk []]
  · unfold VerifiableServer.deserialize VerifiableServer.serialize
    rw [hrs sk hsk _]
    dsimp only
    rw [show serializeElemM (q := q) eLen pk =
      serializeElemM eLen pk ++ [] from (List.append_nil _).symm, hre pk hpk []]
  · unfold deserializeBlindedElement serializeBlindedElement
    rw [show serializeElemM (q := q) eLen B =
      serializeElemM eLen B ++ [] from (List.append_nil _).symm, hre B hB []]
  · unfold deserializeEvaluationElement serializeEvaluationElement
    rw [show serializeElemM (q := q) eLen E =
      serializeElemM eLen E ++ [] from (List.append_nil _).symm, hre E hE []]
  · unfold Proof.deserialize Proof.serialize
    rw [hrs c hc _]
    dsimp only
    rw [show serializeScalarM (q := q) sLen s =
      serializeScalarM sLen s ++ [] from (List.append_nil _).symm, hrs s hs []]

/-- C8 witness: the seven round-trips on concrete nonzero values. -/
theorem serialization_roundtrip_witness :
    NonVerifiableClient.deserialize (q := 11) 1
      (NonVerifiableClient.serialize 1 (⟨2⟩ : NonVerifiableClient 11)) = .ok ⟨2⟩ ∧
    VerifiableClient.deserialize (q := 11) 1 1
      (VerifiableClient.serialize 1 1 (⟨2, 5⟩ : VerifiableClient 11)) = .ok ⟨2, 5⟩ ∧
    NonVerifiableServer.deserialize (q := 11) 1
      (NonVerifiableServer.serialize 1 (⟨4⟩ : NonVerifiableServer 11)) = .ok ⟨4⟩ ∧
    VerifiableServer.deserialize (q := 11) 1 1
      (VerifiableServer.serialize 1 1 (⟨4, 8⟩ : VerifiableServer 11)) = .ok ⟨4, 8⟩ ∧
    deserializeBlindedElement (q := 11) 1
      (serializeBlindedElement 1 (5 : ZMod 11)) = .ok 5 ∧
    deserializeEvaluationElement (q := 11) 1
      (serializeEvaluationElement 1 (6 : ZMod 11)) = .ok 6 ∧
    Proof.deserialize (q := 11) 1 (Proof.serialize 1 (⟨3, 7⟩ : Proof 11)) =
      .ok ⟨3, 7⟩ := by
  refine serialization_roundtrip 11 1 1 (by norm_num) (by norm_num)
    (2 : ZMod 11) (4 : ZMod 11) (3 : ZMod 11) (7 : ZMod 11) (5 : ZMod 11)
    (8 : ZMod 11) (6 : ZMod 11) ?_ ?_ ?_ ?_ ?_ ?_ ?_ <;> decide

/-- C9: for every group, the wire codec rejects the serialized identity
element and the serialized zero scalar with `Deserialization`. -/
theorem identity_and_zero_rejection (q : ℕ) [NeZero q] (sLen eLen : ℕ) :
    deserializeElemM (q := q) eLen (serializeElemM eLen (0 : ZMod q)) =
      .error .deserialization ∧
    deserializeScalarM (q := q) sLen (serializeScalarM sLen (0 : ZMod q)) =
      .error .deserialization := by
  have hzs : bytesToNatBE (natToBytesBE sLen (0 : ZMod q).val) = 0 := by
    rw [ZMod.val_zero]
    exact bytesToNatBE_natToBytesBE (Nat.pos_pow_of_pos sLen (by omega))
  have hze : bytesToNatBE (natToBytesBE eLen (0 : ZMod q).val) = 0 := by
    rw [ZMod.val_zero]
    exact bytesToNatBE_natToBytesBE (Nat.pos_pow_of_pos eLen (by omega))
  constructor
  · unfold deserializeElemM serializeElemM
    rw [if_neg]
    intro hcond
    exact hcond.2.2.1 hze
  · unfold deserializeScalarM serializeScalarM
    rw [if_neg]
    intro hcond
    exact hcond.2.2.1 hzs

/-- C9 witness: rejection on the toy group. -/
theorem identity_and_zero_rejection_witness :
    deserializeElemM (q := 11) 1 (serializeElemM 1 (0 : ZMod 11)) =
      .error .deserialization ∧
    deserializeScalarM (q := 11) 1 (serializeScalarM 1 (0 : ZMod 11)) =
      .error .deserialization :=
  identity_and_zero_rejection 11 1 1

/-! ### Tamper detection -/

/-- Absence of a hash-to-scalar collision between two specific challenge
inputs (under the verifiable-mode HashToScalar- DST): if the hashes agree,
the inputs agree.  Every tamper-detection statement below is conditional on
such a pairwise collision-freeness assumption, the only caveat under which a
DLEQ challenge comparison can decide anything. -/
def NoCollision (S : Suite q) (l l' : List ℕ) : Prop :=
  S.hashScalar l (hashToScalarDST S .verifiable) =
    S.hashScalar l' (hashToScalarDST S .verifiable) → l = l'

/-- The blinded element produced by an honest verifiable blind. -/
def honestB (S : Suite q) (x : List ℕ) (rb : ZMod q) : ZMod q :=
  S.hashCurve x (hashToGroupDST S .verifiable) * rb

/-- The challenge input recomputed by `verify_proof` for the single pair
`(c, d)` against `a = g` and the element `u`, with proof `pf`. -/
def singleVerifyInput (S : Suite q) (u c d : ZMod q) (pf : Proof q) : List ℕ :=
  challengeInput S u (c * compositeScalar S (seedBytes S u) 0 c d)
    (d * compositeScalar S (seedBytes S u) 0 c d)
    (S.base * pf.s_scalar + u * pf.c_scalar)
    (c * compositeScalar S (seedBytes S u) 0 c d * pf.s_scalar +
      d * compositeScalar S (seedBytes S u) 0 c d * pf.c_scalar)

/-- The challenge recomputed by `verify_proof` for a single pair. -/
def singleChallenge (S : Suite q) (u c d : ZMod q) (pf : Proof q) : ZMod q :=
  S.hashScalar (singleVerifyInput S u c d pf) (hashToScalarDST S .verifiable)

/-- The challenge input hashed by `generate_proof` in an honest singleton
evaluation with nonce `rp`, exponent `t`, and pair `(E, B)`. -/
def honestChallengeInput (S : Suite q) (rp t E B : ZMod q) : List ℕ :=
  challengeInput S (S.base * t)
    (E * compositeScalar S (seedBytes S (S.base * t)) 0 E B)
    (E * compositeScalar S (seedBytes S (S.base * t)) 0 E B * t)
    (S.base * rp)
    (E * compositeScalar S (seedBytes S (S.base * t)) 0 E B * rp)

/-- The challenge of `honestProof` is the hash of `honestChallengeInput`. -/
theorem honestProof_c (S : Suite q) (rp t E B : ZMod q) :
    (honestProof S rp t E B).c_scalar =
      S.hashScalar (honestChallengeInput S rp t E B)
        (hashToScalarDST S .verifiable) := rfl

/-- The challenge transcript is injective in its five elements. -/
theorem challengeInput_inj (S : Suite q) {b m z t2 t3 b' m' z' t2' t3' : ZMod q}
    (h : challengeInput S b m z t2 t3 = challengeInput S b' m' z' t2' t3') :
    b = b' ∧ m = m' ∧ z = z' ∧ t2 = t2' ∧ t3 = t3' := by
  simp only [challengeInput, List.append_assoc] at h
  obtain ⟨-, h⟩ := List.append_inj h rfl
  obtain ⟨hb, h⟩ := List.append_inj h (by rw [S.serElem_len, S.serElem_len])
  obtain ⟨-, h⟩ := List.append_inj h rfl
  obtain ⟨hm, h⟩ := List.append_inj h (by rw [S.serElem_len, S.serElem_len])
  obtain ⟨-, h⟩ := List.append_inj h rfl
  obtain ⟨hz, h⟩ := List.append_inj h (by rw [S.serElem_len, S.serElem_len])
  obtain ⟨-, h⟩ := List.append_inj h rfl
  obtain ⟨ht2, h⟩ := List.append_inj h (by rw [S.serElem_len, S.serElem_len])
  obtain ⟨-, h⟩ := List.append_inj h rfl
  obtain ⟨ht3, -⟩ := List.append_inj h (by rw [S.serElem_len, S.serElem_len])
  exact ⟨S.serElem_inj _ _ hb, S.serElem_inj _ _ hm, S.serElem_inj _ _ hz,
    S.serElem_inj _ _ ht2, S.serElem_inj _ _ ht3⟩

/-- The composite transcript with a fixed seed and index is injective in the
pair `(c, d)`. -/
theorem compositeInput_inj (S : Suite q) (seed : List ℕ) (i : ℕ)
    {c d c' d' : ZMod q}
    (h : compositeInput S seed i c d = compositeInput S seed i c' d') :
    c = c' ∧ d = d' := by
  simp only [compositeInput, List.append_assoc] at h
  obtain ⟨-, h⟩ := List.append_inj h rfl
  obtain ⟨-, h⟩ := List.append_inj h rfl
  obtain ⟨-, h⟩ := List.append_inj h rfl
  obtain ⟨-, h⟩ := List.append_inj h rfl
  obtain ⟨hc, h⟩ := List.append_inj h (by rw [S.serElem_len, S.serElem_len])
  obtain ⟨-, h⟩ := List.append_inj h rfl
  obtain ⟨hd, -⟩ := List.append_inj h (by rw [S.serElem_len, S.serElem_len])
  exact ⟨S.serElem_inj _ _ hc, S.serElem_inj _ _ hd⟩

/-- `verify_proof` on a single pair reduces to the single-challenge
comparison. -/
theorem verifyProof_singleton (S : Suite q) (u c d : ZMod q) (pf : Proof q) :
    verifyProof S S.base u [c] [d] pf =
      if singleChallenge S u c d pf = pf.c_scalar then .ok ()
      else .error .proofVerification := by
  unfold verifyProof
  rw [computeComposites_none S u [c] [d] rfl (by norm_num)]
  dsimp only
  have h1 : compLoop S (seedBytes S u) true 0 ([c].zip [d]) (0, 0) =
      (c * compositeScalar S (seedBytes S u) 0 c d,
        d * compositeScalar S (seedBytes S u) 0 c d) := by
    simp [compLoop]
  rw [h1]
  rfl

/-- Single verifiable finalize fails with `ProofVerification` whenever the
recomputed single challenge differs from the proof challenge. -/
theorem verifiableFinalize_verify_ne (S : Suite q) (bl B : ZMod q) (x : List ℕ)
    (E' pk' : ZMod q) (pf : Proof q) {info : List ℕ}
    (hinfo : info.length ≤ 65514)
    (hne : singleChallenge S (S.base * mScalar S info .verifiable + pk') E' B pf ≠
      pf.c_scalar) :
    VerifiableClient.finalize S ⟨bl, B⟩ x E' pf pk' info =
      .error .proofVerification := by
  unfold VerifiableClient.finalize batchFinalize verifiableUnblind
  rw [i2osp2_of_le (by omega)]
  dsimp only
  rw [hashToScalarCS_context_of_le S .verifiable hinfo]
  dsimp only [List.map_cons, List.map_nil]
  rw [verifyProof_singleton S _ E' B pf, if_neg hne]

/-- C4 (amended): for an honest verifiable run (blind of `x` with `rb ≠ 0`,
evaluate under key `k` with `sk + m ≠ 0` producing the honest evaluation
element `E` and proof `pf`), replacing before finalize the public key, the
metadata (with a different metadata scalar), or the evaluation element by a
different value makes finalize fail with `ProofVerification` — absent a
hash-to-scalar collision on the concrete transcripts involved — while
replacing the input `x` alone does not touch proof verification: finalize
then succeeds with a different output. -/
theorem proof_tamper_detection (q : ℕ) [Fact q.Prime] (S : Suite q)
    (x info : List ℕ) (rb rp k : ZMod q)
    (hinfo : info.length ≤ 65514) (hrb : rb ≠ 0)
    (hP : S.hashCurve x (hashToGroupDST S .verifiable) ≠ 0)
    (ht : k + mScalar S info .verifiable ≠ 0)
    (B t E : ZMod q) (pf : Proof q)
    (hB : B = honestB S x rb) (hTt : t = k + mScalar S info .verifiable)
    (hE : E = honestEvalElem S k B info) (hpf : pf = honestProof S rp t E B) :
    (∀ pk', pk' ≠ S.base * k →
      NoCollision S
        (singleVerifyInput S (S.base * mScalar S info .verifiable + pk') E B pf)
        (honestChallengeInput S rp t E B) →
      VerifiableClient.finalize S ⟨rb, B⟩ x E pf pk' info =
        .error .proofVerification) ∧
    (∀ info' : List ℕ, info'.length ≤ 65514 →
      mScalar S info' .verifiable ≠ mScalar S info .verifiable →
      NoCollision S
        (singleVerifyInput S
          (S.base * mScalar S info' .verifiable + S.base * k) E B pf)
        (honestChallengeInput S rp t E B) →
      VerifiableClient.finalize S ⟨rb, B⟩ x E pf (S.base * k) info' =
        .error .proofVerification) ∧
    (∀ E', E' ≠ E →
      NoCollision S (compositeInput S (seedBytes S (S.base * t)) 0 E' B)
        (compositeInput S (seedBytes S (S.base * t)) 0 E B) →
      NoCollision S
        (singleVerifyInput S
          (S.base * mScalar S info .verifiable + S.base * k) E' B pf)
        (honestChallengeInput S rp t E B) →
      VerifiableClient.finalize S ⟨rb, B⟩ x E' pf (S.base * k) info =
        .error .proofVerification) ∧
    (∀ x' : List ℕ, x'.length ≤ 65535 →
      VerifiableClient.finalize S ⟨rb, B⟩ x' E pf (S.base * k) info =
        .ok (S.hashH (i2osp2Arr x'.length ++ x' ++
          i2osp2Arr info.length ++ info ++
          i2osp2Arr S.elemLen ++ S.serElem (E * invertScalar rb) ++
          i2osp2Arr (STR_FINALIZE ++ contextString S .verifiable).length ++
          (STR_FINALIZE ++ contextString S .verifiable)))) := by
  subst hB hTt hE hpf
  have hBne : honestB S x rb ≠ 0 := mul_ne_zero hP hrb
  have hEt : honestEvalElem S k (honestB S x rb) info *
      (k + mScalar S info .verifiable) = honestB S x rb := by
    unfold honestEvalElem
    rw [mul_assoc, mul_comm (invertScalar _) _, invertScalar_mul_cancel ht, mul_one]
  have hsplit : S.base * (k + mScalar S info .verifiable) =
      S.base * mScalar S info .verifiable + S.base * k := by ring
  refine ⟨?_, ?_, ?_, ?_⟩
  · intro pk' hpk hcol
    apply verifiableFinalize_verify_ne S rb _ x _ pk' _ hinfo
    intro hceq
    rw [honestProof_c] at hceq
    have hsvi := hcol hceq
    simp only [singleVerifyInput, honestChallengeInput] at hsvi
    obtain ⟨hu, -, -, -, -⟩ := challengeInput_inj S hsvi
    rw [hsplit] at hu
    exact hpk (add_left_cancel hu)
  · intro info' hinfo' hm hcol
    apply verifiableFinalize_verify_ne S rb _ x _ _ _ hinfo'
    intro hceq
    rw [honestProof_c] at hceq
    have hsvi := hcol hceq
    simp only [singleVerifyInput, honestChallengeInput] at hsvi
    obtain ⟨hu, -, -, -, -⟩ := challengeInput_inj S hsvi
    rw [hsplit] at hu
    have hbm := add_right_cancel hu
    exact hm (mul_left_cancel₀ S.base_ne hbm)
  · intro E' hE' hcol1 hcol2
    apply verifiableFinalize_verify_ne S rb _ x _ _ _ hinfo
    intro hceq
    rw [honestProof_c] at hceq
    have hsvi := hcol2 hceq
    simp only [singleVerifyInput, honestChallengeInput] at hsvi
    rw [← hsplit] at hsvi
    obtain ⟨-, -, hZ, -, -⟩ := challengeInput_inj S hsvi
    have hzz : honestEvalElem S k (honestB S x rb) info *
        compositeScalar S (seedBytes S
          (S.base * (k + mScalar S info .verifiable))) 0
          (honestEvalElem S k (honestB S x rb) info) (honestB S x rb) *
        (k + mScalar S info .verifiable) =
        honestB S x rb * compositeScalar S (seedBytes S
          (S.base * (k + mScalar S info .verifiable))) 0
          (honestEvalElem S k (honestB S x rb) info) (honestB S x rb) := by
      rw [mul_right_comm, hEt]
    rw [hzz] at hZ
    have hDd := mul_left_cancel₀ hBne hZ
    have hci := hcol1 hDd
    obtain ⟨hEE, -⟩ := compositeInput_inj S _ 0 hci
    exact hE' hEE
  · intro x' hx'
    have hg := generateProof_singleton S rp (k + mScalar S info .verifiable)
      (honestB S x rb * invertScalar (k + mScalar S info .verifiable))
      (honestB S x rb)
    exact verifiableFinalize_honest S x' rb (honestB S x rb) k rp hx' hinfo ht _ hg

set_option maxRecDepth 2000000 in
/-- C4 witness: a tampered public key on the toy suite is rejected with
`ProofVerification`. -/
theorem proof_tamper_detection_witness :
    VerifiableClient.finalize toySuite ⟨2, honestB toySuite [1] 2⟩ [1]
      (honestEvalElem toySuite 4 (honestB toySuite [1] 2) [7])
      (honestProof toySuite 3 (4 + mScalar toySuite [7] .verifiable)
        (honestEvalElem toySuite 4 (honestB toySuite [1] 2) [7])
        (honestB toySuite [1] 2))
      (toySuite.base * 4 + 1) [7] = .error .proofVerification := by
  have hrb : (2 : ZMod 11) ≠ 0 := by decide
  have hP : toySuite.hashCurve [1] (hashToGroupDST toySuite .verifiable) ≠ 0 := by
    decide
  have ht : (4 : ZMod 11) + mScalar toySuite [7] .verifiable ≠ 0 := by decide
  have hpk : (toySuite.base * 4 + 1 : ZMod 11) ≠ toySuite.base * 4 := by decide
  have hnc : NoCollision toySuite
      (singleVerifyInput toySuite
        (toySuite.base * mScalar toySuite [7] .verifiable + (toySuite.base * 4 + 1))
        (honestEvalElem toySuite 4 (honestB toySuite [1] 2) [7])
        (honestB toySuite [1] 2)
        (honestProof toySuite 3 (4 + mScalar toySuite [7] .verifiable)
          (honestEvalElem toySuite 4 (honestB toySuite [1] 2) [7])
          (honestB toySuite [1] 2)))
      (honestChallengeInput toySuite 3 (4 + mScalar toySuite [7] .verifiable)
        (honestEvalElem toySuite 4 (honestB toySuite [1] 2) [7])
        (honestB toySuite [1] 2)) := by
    unfold NoCollision
    decide
  haveI : Fact (Nat.Prime 11) := ⟨by norm_num⟩
  exact (proof_tamper_detection 11 toySuite [1] [7] 2 3 4 (by decide)
    hrb hP ht (honestB toySuite [1] 2) (4 + mScalar toySuite [7] .verifiable)
    (honestEvalElem toySuite 4 (honestB toySuite [1] 2) [7])
    (honestProof toySuite 3 (4 + mScalar toySuite [7] .verifiable)
      (honestEvalElem toySuite 4 (honestB toySuite [1] 2) [7])
      (honestB toySuite [1] 2)) rfl rfl rfl rfl).1
    (toySuite.base * 4 + 1) hpk hnc

set_option maxRecDepth 2000000 in
/-- C4 counterexample: replacing the input `x` of an honest verifiable run by
a different value before finalize does not cause `ProofVerification` — the
input is not part of the proof transcript, so finalize succeeds (with a
different output). -/
theorem proof_tamper_detection_cex :
    VerifiableClient.finalize toySuite ⟨2, honestB toySuite [1] 2⟩ [2]
      (honestEvalElem toySuite 4 (honestB toySuite [1] 2) [7])
      (honestProof toySuite 3 (4 + mScalar toySuite [7] .verifiable)
        (honestEvalElem toySuite 4 (honestB toySuite [1] 2) [7])
        (honestB toySuite [1] 2))
      (toySuite.base * 4) [7] ≠ .error .proofVerification := by decide

/-- C10 witness: agreement on a concrete toy batch. -/
theorem compute_composites_agreement_witness :
    computeComposites toySuite (some 3) 7 [4, 5] [4 * 3, 5 * 3] =
      computeComposites toySuite none 7 [4, 5] [4 * 3, 5 * 3] :=
  compute_composites_agreement 11 toySuite 3 7 [4, 5] [4 * 3, 5 * 3]
    (by decide) (by decide)

end Voprf
